import Mathlib

/-!
Verification development for the `ask-nextjs` documentation indexing and
retrieval pipeline.

The development shallowly embeds the program's three source files:

* `src/lib/index-files.ts` — markdown segmentation (`processMdxForSearch`,
  `splitTreeBy`, `extractMetaExport`, `getObjectFromExpression`), path
  canonicalization (`formatPath`) and the sync engine (`indexFiles`).
* `src/lib/seed.ts` (bundled file) — the `walk` filesystem traversal and
  `generateEmbedding` wrapper, plus the store schema the `DB` structure
  mirrors (`page`, `page_section`).
* the query route — `GET`, embedding the raw SQL retrieval query.

External collaborators (the OpenAI embedding API, the SHA-256 digest, the
markdown parser/serializers, the github-slugger normalizer and the pgvector
cosine-distance operator) are modelled as opaque function parameters; every
piece of program logic is translated directly from the source.

Machine reals (the embedding vector components and similarity scores) are
modelled as rationals: no claim depends on floating-point rounding, only on
comparisons against the literal thresholds in the code.
-/

namespace Ask

/-! ## Path canonicalization: `formatPath` (src/lib/index-files.ts, 189–195)

The source applies four chained `String.replace` calls with the global
regexes: two literal backslashes become one forward slash; any two digits
followed by a dash are removed; a trailing `.mdx` is removed; a trailing
backslash-plus-`index` is removed.

Note the final regex matches a *backslash* before `index`, not a forward
slash, although the line comment in the source says "Remove trailing /index".
-/

/-- JS global replace of two consecutive backslash characters by one forward
slash, scanning left to right. -/
def replaceDoubleBackslash : List Char → List Char
  | '\\' :: '\\' :: rest => '/' :: replaceDoubleBackslash rest
  | c :: rest => c :: replaceDoubleBackslash rest
  | [] => []

/-- JS global replace of the pattern digit-digit-dash by the empty string:
scan left to right; whenever the next three characters are digit, digit,
dash, drop them and continue after the match. -/
def stripNumberDash : List Char → List Char
  | a :: b :: c :: rest =>
    if a.isDigit && b.isDigit && c = '-' then stripNumberDash rest
    else a :: stripNumberDash (b :: c :: rest)
  | l => l

/-- JS anchored replace of a fixed literal suffix by the empty string: drop
the suffix if present, otherwise leave the string unchanged. -/
def dropSuffixChars (s pat : List Char) : List Char :=
  if pat.isSuffixOf s then s.take (s.length - pat.length) else s

/-- `formatPath` from src/lib/index-files.ts, lines 189–195, translated
replace-by-replace. -/
def formatPath (path : String) : String :=
  let l1 := replaceDoubleBackslash path.toList
  let l2 := stripNumberDash l1
  let l3 := dropSuffixChars l2 ".mdx".toList
  let l4 := dropSuffixChars l3 "\\index".toList
  String.mk l4

/-! ## estree fragment and meta extraction (src/lib/index-files.ts, 32–89)

Only the parts of the estree AST that `extractMetaExport` and
`getObjectFromExpression` inspect are modelled; every constructor the code
does not look inside is collapsed into an `other` variant.
-/

/-- An estree `Literal`'s value: the scalar shapes the source's type
annotation mentions (strings, numbers, booleans) plus `null`. JS numbers are
modelled as integers: only truthiness (zero / non-zero) matters to the code. -/
inductive EsLit where
  | str (s : String)
  | num (n : Int)
  | bool (b : Bool)
  | nullLit
deriving DecidableEq, Repr

/-- JS truthiness of a literal value, as tested by
`(property.value.type === 'Literal' && property.value.value) || undefined`:
`''`, `0`, `false` and `null` are falsy. -/
def EsLit.truthy : EsLit → Bool
  | .str s => !(s == "")
  | .num n => !(n == 0)
  | .bool b => b
  | .nullLit => false

/-- A property key: an `Identifier` (with its `name`) or any other key kind. -/
inductive PropKey where
  | ident (name : String)
  | other
deriving DecidableEq, Repr

/-- A property value: a `Literal` or any non-literal expression. -/
inductive PropVal where
  | lit (v : EsLit)
  | nonLiteral
deriving DecidableEq, Repr

/-- One element of an `ObjectExpression.properties` array: a `Property` or a
spread element (anything whose `type !== 'Property'`). -/
inductive ObjProp where
  | property (key : PropKey) (value : PropVal)
  | spread
deriving DecidableEq, Repr

/-- An expression, as far as `extractMetaExport` inspects it. -/
inductive EsExpr where
  | objectExpression (properties : List ObjProp)
  | otherExpr
deriving DecidableEq, Repr

/-- A declarator's `id`: an `Identifier` pattern or any other pattern. -/
inductive EsDeclId where
  | ident (name : String)
  | otherPattern
deriving DecidableEq, Repr

/-- An estree `VariableDeclarator`: its `id` pattern and optional `init`. -/
structure EsDeclarator where
  id : EsDeclId
  init : Option EsExpr
deriving DecidableEq, Repr

/-- A declaration attached to an export: `VariableDeclaration` or other. -/
inductive EsDeclaration where
  | variableDeclaration (declarations : List EsDeclarator)
  | otherDeclaration
deriving DecidableEq, Repr

/-- A program body item: `ExportNamedDeclaration` (whose `declaration` may be
null, e.g. `export { a }`) or any other statement. -/
inductive EsBodyItem where
  | exportNamedDeclaration (declaration : Option EsDeclaration)
  | otherItem
deriving DecidableEq, Repr

/-- The `estree` program attached to an `mdxjsEsm` node. -/
structure Estree where
  body : List EsBodyItem
deriving DecidableEq, Repr

/-- One top-level `mdast` node. `type` is the node's type tag (`"heading"`,
`"paragraph"`, `"mdxjsEsm"`, ...); `estree` is the `node.data?.estree`
payload, present on `mdxjsEsm` nodes. `unist-util-filter` also prunes nested
nodes inside kept children, but only the top-level node sequence determines
sectioning, and serialized content is delegated to the opaque `toMd`
serializer, so children are not modelled. -/
structure Content where
  type : String
  estree : Option Estree := none
deriving DecidableEq, Repr

/-- An `mdast` root: its ordered top-level children. -/
structure Root where
  children : List Content
deriving DecidableEq, Repr

/-- The result type of `getObjectFromExpression`: a JS object modelled as an
insertion-ordered association list; a `none` value is a key whose value is
`undefined`. -/
abbrev MetaObj := List (String × Option EsLit)

/-- JS `{...object, [key]: value}`: overwrite the value at an existing key in
place, otherwise append the new key at the end. -/
def objInsert (obj : MetaObj) (k : String) (v : Option EsLit) : MetaObj :=
  if obj.any (fun e => e.1 == k) then
    obj.map (fun e => if e.1 == k then (k, v) else e)
  else obj ++ [(k, v)]

/-- One step of the reduce in `getObjectFromExpression`
(src/lib/index-files.ts, 35–51): skip non-`Property` elements; take the key
only when it is a non-empty `Identifier` name (the
`(cond && name) || undefined` idiom); take the value only when it is a
*truthy* `Literal` value (the `(cond && value) || undefined` idiom maps
falsy literals to `undefined`). -/
def objStep (obj : MetaObj) (pr : ObjProp) : MetaObj :=
  match pr with
  | .spread => obj
  | .property key value =>
    let k : Option String :=
      match key with
      | .ident nm => if nm == "" then none else some nm
      | .other => none
    let v : Option EsLit :=
      match value with
      | .lit l => if l.truthy then some l else none
      | .nonLiteral => none
    match k with
    | none => obj
    | some k => objInsert obj k v

/-- `getObjectFromExpression` (src/lib/index-files.ts, 32–52): a reduce over
`node.properties` starting from the empty object. -/
def getObjectFromExpression (properties : List ObjProp) : MetaObj :=
  properties.foldl objStep []

/-- The predicate of the `find` call in `extractMetaExport` (lines 60–68):
an `mdxjsEsm` node whose first estree body item is an
`ExportNamedDeclaration` of a `VariableDeclaration` whose first declarator
binds the identifier `meta`. -/
def isMetaExportNode (n : Content) : Bool :=
  n.type == "mdxjsEsm" &&
    match n.estree with
    | some es =>
      match es.body.head? with
      | some (.exportNamedDeclaration (some (.variableDeclaration ds))) =>
        match ds.head? with
        | some d =>
          match d.id with
          | .ident nm => nm == "meta"
          | .otherPattern => false
        | none => false
      | _ => false
    | none => false

/-- `extractMetaExport` (src/lib/index-files.ts, 59–89): find the *first*
node satisfying `isMetaExportNode`; then re-walk the same chain, additionally
requiring the declarator's `init` to be an `ObjectExpression`; give up with
`none` (undefined) otherwise. -/
def extractMetaExport (mdxTree : Root) : Option MetaObj :=
  match mdxTree.children.find? isMetaExportNode with
  | none => none
  | some n =>
    match n.estree with
    | some es =>
      match es.body.head? with
      | some (.exportNamedDeclaration (some (.variableDeclaration ds))) =>
        match ds.head? with
        | some d =>
          match d.id with
          | .ident nm =>
            if nm == "meta" then
              match d.init with
              | some (.objectExpression props) => some (getObjectFromExpression props)
              | _ => none
            else none
          | .otherPattern => none
        | none => none
      | _ => none
    | none => none

/-! ## Tree splitting (src/lib/index-files.ts, 98–110)

`splitTreeBy` is an `Array.reduce`: each tree in the accumulator is
represented by its children list (`u('root', [node])` wraps a single node). -/

/-- One step of the reduce in `splitTreeBy`: `trees.slice(-1)` destructures to
the last accumulated tree or `undefined`; a new singleton tree is started when
there is no last tree or the predicate holds, otherwise the node is pushed
onto the last tree's children. -/
def splitStep (predicate : Content → Bool) (trees : List (List Content))
    (node : Content) : List (List Content) :=
  match trees.getLast? with
  | none => trees ++ [[node]]
  | some lastTree =>
    if predicate node then trees ++ [[node]]
    else trees.dropLast ++ [lastTree ++ [node]]

/-- `splitTreeBy` (src/lib/index-files.ts, 98–110). -/
def splitTreeBy (children : List Content) (predicate : Content → Bool) :
    List (List Content) :=
  children.foldl (splitStep predicate) []

/-! ## `processMdxForSearch` (src/lib/index-files.ts, 126–184) -/

/-- One section produced by the segmenter (the TS `Section` type). -/
structure Section where
  content : String
  heading : Option String := none
  slug : Option String := none
deriving DecidableEq, Repr

/-- The TS `ProcessedMdx` type. -/
structure ProcessedMdx where
  checksum : String
  meta : Option MetaObj
  sections : List Section
deriving DecidableEq, Repr

/-- Opaque external collaborators used by the segmenter:
`hash` is `createHash('sha256').update(content).digest('base64')`;
`toMd` is `mdast-util-to-markdown` on a root with the given children;
`toStr` is `mdast-util-to-string`; `slugBase` is github-slugger's
normalization of a single heading. -/
structure Externals where
  hash : String → String
  toMd : List Content → String
  toStr : Content → String
  slugBase : String → String

/-- `GithubSlugger.slug` with the occurrence state threaded explicitly:
`seen` records the normalized slugs issued so far; a repeat of the same base
slug gets a `-n` suffix. -/
def slugOf (ext : Externals) (seen : List String) (heading : String) : String :=
  let base := ext.slugBase heading
  let n := seen.count base
  if n = 0 then base else base ++ "-" ++ toString n

/-- The `sectionTrees.map` of lines 166–177, with the stateful slugger
threaded in document order. `firstNode` is the destructured head of the
tree's children; the heading text is captured only for heading nodes, and
the JS-falsy guard `heading ? slugger.slug(heading) : undefined` gives no
slug for an absent *or empty* heading. Split groups are never empty, so the
`[]` case is unreachable. -/
def mkSections (ext : Externals) : List String → List (List Content) → List Section
  | _, [] => []
  | seen, t :: rest =>
    match t with
    | [] => { content := ext.toMd [] } :: mkSections ext seen rest
    | firstNode :: _ =>
      if firstNode.type == "heading" then
        let h := ext.toStr firstNode
        if h == "" then
          { content := ext.toMd t, heading := some h, slug := none } ::
            mkSections ext seen rest
        else
          { content := ext.toMd t, heading := some h,
            slug := some (slugOf ext seen h) } ::
            mkSections ext (seen ++ [ext.slugBase h]) rest
      else
        { content := ext.toMd t, heading := none, slug := none } ::
          mkSections ext seen rest

/-- The node types removed before sectioning (lines 142–152). -/
def mdxTypes : List String :=
  ["mdxjsEsm", "mdxJsxFlowElement", "mdxJsxTextElement", "mdxFlowExpression",
   "mdxTextExpression"]

/-- `processMdxForSearch` (src/lib/index-files.ts, 131–184). Parsing
(`fromMarkdown`) is the external boundary, so the function receives the
already-parsed `mdxTree` alongside the raw `content` it was parsed from.
`unist-util-filter` can only return `null` when the root itself is removed;
`'root'` is not an MDX type, so the `!mdTree` early return is unreachable
and not modelled. -/
def processMdxForSearch (ext : Externals) (content : String) (mdxTree : Root) :
    ProcessedMdx :=
  let checksum := ext.hash content
  let meta := extractMetaExport mdxTree
  let mdChildren := mdxTree.children.filter (fun n => !(mdxTypes.contains n.type))
  let sectionTrees := splitTreeBy mdChildren (fun node => node.type == "heading")
  { checksum := checksum, meta := meta, sections := mkSections ext [] sectionTrees }

/-! ## Filesystem walker (`walk`, bundled in src/lib/seed.ts, lines 77–118) -/

/-- A filesystem entry as `walk` distinguishes them via `stat`. -/
inductive FSEntry where
  | file (name : String)
  | dir (name : String) (entries : List FSEntry)

/-- The name `readdir` reports for an entry. -/
def FSEntry.name : FSEntry → String
  | .file n => n
  | .dir n _ => n

/-- One discovered document: its path and the path of the nearest ancestor
`index.mdx`, if any. -/
structure WalkEntry where
  path : String
  parentPath : Option String := none
deriving DecidableEq, Repr

/-- `path.join` for a directory and a plain entry name (POSIX separator). -/
def pathJoin (dir name : String) : String := dir ++ "/" ++ name

mutual

/-- `walk` (bundled in src/lib/seed.ts, lines 77–118): if the directory's
immediate entries include `index.mdx`, that file becomes the `parentPath`
for everything at or below this directory — including `index.mdx` itself.
The final `localeCompare` sort is modelled by codepoint order on paths;
none of the proved properties depend on the particular total order. -/
def walk (dir : String) (entries : List FSEntry) (parentPath : Option String) :
    List WalkEntry :=
  let immediateFiles := entries.map FSEntry.name
  let pp := if immediateFiles.contains "index.mdx"
            then some (pathJoin dir "index.mdx") else parentPath
  (walkAll dir entries pp).mergeSort (fun a b => a.path ≤ b.path)

/-- The `Promise.all(immediateFiles.map ...)` body followed by the flatten:
directories recurse, files yield a singleton entry. -/
def walkAll (dir : String) (entries : List FSEntry) (pp : Option String) :
    List WalkEntry :=
  match entries with
  | [] => []
  | .file n :: rest => { path := pathJoin dir n, parentPath := pp } :: walkAll dir rest pp
  | .dir n sub :: rest => walk (pathJoin dir n) sub pp ++ walkAll dir rest pp

end

/-! ## Store model (schema from the bundled src/lib/seed.ts)

The two tables `page` and `page_section` are modelled as lists of rows plus
the `BIGSERIAL` id counters. Embedding vectors (`VECTOR(1536)`) carry
rational components; their values are opaque to every property proved here. -/

/-- An embedding vector. -/
abbrev Emb := List ℚ

/-- The value `generateEmbedding` returns: `{ vectors, tokens }`. -/
structure EmbeddingResult where
  vectors : Emb
  tokens : Nat
deriving DecidableEq, Repr

/-- A `page` row. -/
structure Page where
  id : Nat
  path : String
  checksum : Option String
  meta : Option MetaObj
  type : String
  source : String
  parentPageId : Option Nat
deriving DecidableEq, Repr

/-- A `page_section` row. `embedding` is absent between the row's creation
and the raw vector update. -/
structure PageSection where
  id : Nat
  pageId : Nat
  slug : Option String
  heading : Option String
  content : String
  tokenCount : Nat
  embedding : Option Emb
deriving DecidableEq, Repr

/-- The store state: both tables plus the next `BIGSERIAL` values. -/
structure DB where
  pages : List Page
  sections : List PageSection
  nextPageId : Nat
  nextSectionId : Nat
deriving DecidableEq, Repr

/-- One observable effect of a sync run: a store write or a call to the
embedding provider. Reads are not recorded. -/
inductive Op where
  | deleteSections (pageId : Nat)
  | upsertPage (path : String) (checksum : Option String)
  | createSection (pageId : Nat) (sectionId : Nat)
  | setEmbedding (sectionId : Nat)
  | setChecksum (pageId : Nat) (checksum : Option String)
  | updateParent (pageId : Nat) (parentPageId : Option Nat)
  | embedCall (input : String)
deriving DecidableEq, Repr

/-- Store state plus the trace of effects performed so far (appended at the
end). -/
structure St where
  db : DB
  trace : List Op
deriving DecidableEq, Repr

/-- `prisma.page.findUnique({ where: { path } })`. -/
def findPageByPath (db : DB) (path : String) : Option Page :=
  db.pages.find? (fun p => p.path == path)

/-- Resolving the `parentPage` relation of a row via its foreign key. -/
def findPageById (db : DB) (i : Nat) : Option Page :=
  db.pages.find? (fun p => p.id == i)

/-- `prisma.page.findUnique({ where: { path: parentPath } })` where
`parentPath` is `string | undefined`: Prisma's client rejects a `findUnique`
whose unique field is `undefined` with a validation error at runtime, which
the enclosing try/catch observes as a thrown failure. -/
def findPageByPathOpt (db : DB) : Option String → Except Unit (Option Page)
  | none => .error ()
  | some p => .ok (findPageByPath db p)

/-- `prisma.pageSection.deleteMany({ where: { pageId } })`. -/
def deleteSectionsOf (db : DB) (pid : Nat) : DB :=
  { db with sections := db.sections.filter (fun s => !(s.pageId == pid)) }

/-- `prisma.page.upsert` keyed by `path` (src/lib/index-files.ts, 305–323).
Both branches set `checksum` explicitly to `null`. `parentPageId` receives
the JS value `parentPage?.id`; Prisma skips an `undefined` field, so `none`
leaves the stored link unchanged on update and defaults to null on create.
`meta` may likewise be `undefined` and is skipped on update when absent. -/
def upsertPage (db : DB) (path ty src : String) (meta : Option MetaObj)
    (parentPageId : Option Nat) : Page × DB :=
  match findPageByPath db path with
  | some p =>
    let p' : Page :=
      { p with
        checksum := none
        path := path
        type := ty
        source := src
        meta := match meta with | some m => some m | none => p.meta
        parentPageId := match parentPageId with | some i => some i | none => p.parentPageId }
    (p', { db with pages := db.pages.map (fun q => if q.path == path then p' else q) })
  | none =>
    let p : Page :=
      { id := db.nextPageId, path := path, checksum := none, meta := meta,
        type := ty, source := src, parentPageId := parentPageId }
    (p, { db with pages := db.pages ++ [p], nextPageId := db.nextPageId + 1 })

/-- `prisma.pageSection.create` (lines 334–342): the fresh row has no
embedding yet. -/
def createSection (db : DB) (pid : Nat) (slug heading : Option String)
    (content : String) (tokens : Nat) : PageSection × DB :=
  let s : PageSection :=
    { id := db.nextSectionId, pageId := pid, slug := slug, heading := heading,
      content := content, tokenCount := tokens, embedding := none }
  (s, { db with sections := db.sections ++ [s], nextSectionId := db.nextSectionId + 1 })

/-- The raw `UPDATE page_section SET embedding = ... WHERE id = ...`
(lines 345–349). -/
def setSectionEmbedding (db : DB) (sid : Nat) (e : Emb) : DB :=
  { db with sections := db.sections.map fun s =>
      if s.id == sid then { s with embedding := some e } else s }

/-- `prisma.page.update({ where: { id }, data: { checksum } })` (lines
362–365). -/
def updatePageChecksum (db : DB) (pid : Nat) (c : Option String) : DB :=
  { db with pages := db.pages.map fun p =>
      if p.id == pid then { p with checksum := c } else p }

/-- `prisma.page.update({ where: { id }, data: { parentPageId: parentPage?.id } })`
(lines 288–291): an `undefined` field is skipped by Prisma, so `none` leaves
the row unchanged. -/
def updatePageParent (db : DB) (pid : Nat) (v : Option Nat) : DB :=
  match v with
  | none => db
  | some i =>
    { db with pages := db.pages.map fun p =>
        if p.id == pid then { p with parentPageId := some i } else p }

/-! ## Embedding provider (bundled src/lib/seed.ts, `generateEmbedding`) -/

/-- The newline normalization `_input.replace(queryAllNewlines, ' ')` applied
before submitting text to the provider. -/
def collapseNewlines (s : String) : String :=
  String.mk (s.toList.map (fun c => if c = '\n' then ' ' else c))

/-- `generateEmbedding`: collapse newlines, then call the opaque provider
`api`, which may fail (quota, auth, network). -/
def generateEmbedding (api : String → Except Unit EmbeddingResult)
    (input : String) : Except Unit EmbeddingResult :=
  api (collapseNewlines input)

/-! ## Sync engine (`indexFiles`, src/lib/index-files.ts, 239–377) -/

/-- The run configuration: the `--refresh` flag and the embedding provider. -/
structure Config where
  shouldRefresh : Bool
  api : String → Except Unit EmbeddingResult

/-- One discovered document, as a `MarkdownEmbeddingSource` presents it to
the loop: its canonical `path` and `parentPath` (already through
`formatPath`), the fixed `type`/`source` tags, and the outcome of `load()`
(file read + parse + segmentation), which may fail. -/
structure Doc where
  path : String
  parentPath : Option String
  type : String := "markdown"
  source : String := "guide"
  load : Except Unit ProcessedMdx
deriving Repr

/-- `heading ? heading + ' ' + content : content` (line 331); an empty
heading is JS-falsy. -/
def concattedContent (s : Section) : String :=
  match s.heading with
  | some h => if h == "" then s.content else h ++ " " ++ s.content
  | none => s.content

/-- The inner `for (const { slug, heading, content } of sections)` loop
(lines 328–359), threading the store and collecting the effects it performs
in order. Each iteration calls the provider (recorded as an `embedCall` of
the submitted, newline-collapsed text), inserts the section row, then
writes the embedding vector. The inner catch only logs and rethrows, so a
provider failure aborts the remaining sections; writes made before the
failure persist. -/
def sectionLoop (api : String → Except Unit EmbeddingResult) (pid : Nat) :
    List Section → DB → Except Unit Unit × DB × List Op
  | [], db => (.ok (), db, [])
  | s :: rest, db =>
    let input := concattedContent s
    match generateEmbedding api input with
    | .error e => (.error e, db, [.embedCall (collapseNewlines input)])
    | .ok res =>
      let (ps, db1) := createSection db pid s.slug s.heading s.content res.tokens
      let db2 := setSectionEmbedding db1 ps.id res.vectors
      let (r, db3, ops) := sectionLoop api pid rest db2
      (r, db3,
        .embedCall (collapseNewlines input) :: .createSection pid ps.id ::
          .setEmbedding ps.id :: ops)

/-- The `content unchanged` branch (lines 284–294): if the stored parent
page's path differs from the freshly computed parent path, look up the new
parent by path and update only the parent link; otherwise skip entirely.
A failed parent lookup (undefined `parentPath`) is caught at the document
boundary. -/
def skipBranch (db : DB) (doc : Doc) (ep : Page) : DB × List Op :=
  let storedParentPath := (ep.parentPageId.bind (findPageById db)).map Page.path
  if storedParentPath ≠ doc.parentPath then
    match findPageByPathOpt db doc.parentPath with
    | .error _ => (db, [])
    | .ok parentPage =>
      (updatePageParent db ep.id (parentPage.map Page.id),
       [.updateParent ep.id (parentPage.map Page.id)])
  else (db, [])

/-- The `if (existingPage) deleteMany` step (lines 296–299): when the page
already exists, delete all its sections before regenerating them. -/
def deleteStep (db : DB) : Option Page → DB × List Op
  | some ep => (deleteSectionsOf db ep.id, [.deleteSections ep.id])
  | none => (db, [])

/-- Lines 301–365 once the old sections are gone: upsert the page with
`checksum: null`, run the section loop, and, only if every section
succeeded, set the page's checksum to the freshly computed value as the
final operation. `pp` is the resolved parent page's id, if any. -/
def reindexCore (cfg : Config) (doc : Doc) (pr : ProcessedMdx) (db1 : DB)
    (pp : Option Nat) : DB × List Op :=
  let up := upsertPage db1 doc.path doc.type doc.source pr.meta pp
  match sectionLoop cfg.api up.1.id pr.sections up.2 with
  | (.ok _, db3, ops3) =>
    (updatePageChecksum db3 up.1.id (some pr.checksum),
     [Op.upsertPage doc.path none] ++ ops3 ++ [Op.setChecksum up.1.id (some pr.checksum)])
  | (.error _, db3, ops3) => (db3, [Op.upsertPage doc.path none] ++ ops3)

/-- The re-index branch (lines 296–365): delete the existing page's
sections, resolve the parent page (a failed lookup is caught at the
document boundary, leaving only the deletion), then run `reindexCore`. -/
def reindexBranch (cfg : Config) (db : DB) (doc : Doc) (pr : ProcessedMdx)
    (existing : Option Page) : DB × List Op :=
  let del := deleteStep db existing
  match findPageByPathOpt del.1 doc.parentPath with
  | .error _ => del
  | .ok parentPage =>
    let core := reindexCore cfg doc pr del.1 (parentPage.map Page.id)
    (core.1, del.2 ++ core.2)

/-- Processing of one discovered document (the body of the
`for (const embeddingSource of embeddingSources)` loop, lines 266–374),
with the per-document try/catch boundary: a failure anywhere inside leaves
the writes made so far and moves on. A `load()` failure occurs before any
store write, so it leaves the store untouched. -/
def processDocOps (cfg : Config) (db : DB) (doc : Doc) : DB × List Op :=
  match doc.load with
  | .error _ => (db, [])
  | .ok pr =>
    match findPageByPath db doc.path with
    | some ep =>
      if !cfg.shouldRefresh && ep.checksum == some pr.checksum then
        skipBranch db doc ep
      else
        reindexBranch cfg db doc pr (some ep)
    | none => reindexBranch cfg db doc pr none

/-- One document's processing applied to the store-plus-trace state: the
effects performed for this document are appended to the trace. -/
def processDoc (cfg : Config) (st : St) (doc : Doc) : St :=
  { db := (processDocOps cfg st.db doc).1,
    trace := st.trace ++ (processDocOps cfg st.db doc).2 }

/-- `indexFiles`: the documents discovered by the walker are processed in
order, one at a time, each inside its own try/catch. -/
def indexFiles (cfg : Config) (docs : List Doc) (st : St) : St :=
  docs.foldl (processDoc cfg) st

/-! ## Retrieval (`GET` of the query route, src/unnamed/part_000) -/

/-- One row of the retrieval query's result set. -/
structure ResultRow where
  id : Nat
  pageId : Nat
  heading : Option String
  content : String
  similarity : ℚ
  path : String
deriving DecidableEq, Repr

/-- The rows surviving the `FROM page_section JOIN page ... WHERE` part of
the query: sections joined to their page, with similarity
`1 - (embedding <=> query)` strictly above `.5` and content length strictly
above `50`. `dist` is the store's cosine-distance operator, opaque here. A
row whose `embedding` is SQL `NULL` makes the comparison unknown and is
filtered out. -/
def qualifyingRows (dist : Emb → Emb → ℚ) (pages : List Page)
    (secs : List PageSection) (q : Emb) : List ResultRow :=
  secs.flatMap (fun ps =>
    (pages.filter (fun p => p.id == ps.pageId)).filterMap (fun p =>
      match ps.embedding with
      | some e =>
        if 1 - dist e q > 1/2 ∧ ps.content.length > 50 then
          some { id := ps.id, pageId := ps.pageId, heading := ps.heading,
                 content := ps.content, similarity := 1 - dist e q, path := p.path }
        else none
      | none => none))

/-- The full `$queryRaw` SELECT: filter, `ORDER BY similarity DESC`,
`LIMIT 15`. Ties are returned in an unspecified order by the store; the
stable sort here is one admissible order. -/
def queryRows (dist : Emb → Emb → ℚ) (pages : List Page)
    (secs : List PageSection) (q : Emb) : List ResultRow :=
  ((qualifyingRows dist pages secs q).mergeSort
    (fun a b => decide (b.similarity ≤ a.similarity))).take 15

/-- The route's response, by status: 400 when no query was provided, 500
when anything inside the try throws, 200 with the result rows otherwise. -/
inductive QueryResponse where
  | results (rows : List ResultRow)
  | clientError
  | serverError
deriving DecidableEq, Repr

/-- The `GET` handler (src/unnamed/part_000, 13–43) over a store snapshot.
`req.nextUrl.searchParams.get(queryKey)` is `string | null`; `!query` is
true for both `null` and the empty string. The second component counts
calls made to the embedding provider. -/
def GET (api : String → Except Unit EmbeddingResult) (dist : Emb → Emb → ℚ)
    (pages : List Page) (secs : List PageSection) (queryParam : Option String) :
    QueryResponse × Nat :=
  match queryParam with
  | none => (.clientError, 0)
  | some q =>
    if q == "" then (.clientError, 0)
    else
      match generateEmbedding api q with
      | .error _ => (.serverError, 1)
      | .ok r => (.results (queryRows dist pages secs r.vectors), 1)

/-! ## Derived predicates -/

/-- Structural recursion equivalent of the `splitTreeBy` fold, used to reason
about it: `cur` is the group currently being built. -/
def splitGo (p : Content → Bool) (cur : List Content) : List Content → List (List Content)
  | [] => [cur]
  | c :: rest => if p c then cur :: splitGo p [c] rest else splitGo p (cur ++ [c]) rest

/-- All `page_section` rows of page `pid` have a non-absent embedding. -/
def SecOk (db : DB) (pid : Nat) : Prop :=
  ∀ s ∈ db.sections, s.pageId = pid → s.embedding ≠ none

/-- Section ids are below the `BIGSERIAL` counter. -/
def SecBound (db : DB) : Prop :=
  ∀ s ∈ db.sections, s.id < db.nextSectionId

/-- Structural well-formedness guaranteed by the store schema: serial ids
are below their counters, page ids (primary key) and paths (`UNIQUE`) have
no duplicates, and every section's `page_id` references an existing page. -/
structure WF (db : DB) : Prop where
  pageIdBound : ∀ p ∈ db.pages, p.id < db.nextPageId
  secIdBound : SecBound db
  pageIdsNodup : (db.pages.map Page.id).Nodup
  pagePathsNodup : (db.pages.map Page.path).Nodup
  secPageFk : ∀ s ∈ db.sections, ∃ p ∈ db.pages, p.id = s.pageId

/-- The completion invariant in the direction the code maintains: a page
with a non-null checksum has all of its section rows embedded. -/
def Inv (db : DB) : Prop :=
  ∀ p ∈ db.pages, p.checksum ≠ none →
    ∀ s ∈ db.sections, s.pageId = p.id → s.embedding ≠ none

/-! ## Concrete instances used by counterexamples and witnesses -/

/-- A run configuration whose embedding provider always fails. -/
def cfgFail : Config := { shouldRefresh := false, api := fun _ => .error () }

/-- A run configuration whose embedding provider always succeeds. -/
def cfgOk : Config :=
  { shouldRefresh := false, api := fun _ => .ok { vectors := [1], tokens := 1 } }

/-- The empty store. -/
def st0 : St :=
  { db := { pages := [], sections := [], nextPageId := 0, nextSectionId := 0 },
    trace := [] }

/-- A one-section document at `docs/a` with parent path `docs`. -/
def d0 : Doc :=
  { path := "docs/a", parentPath := some "docs",
    load := .ok { checksum := "c1", meta := none, sections := [{ content := "x" }] } }

/-- A previously indexed page at `docs/a` with a non-null checksum. -/
def pOld : Page :=
  { id := 0, path := "docs/a", checksum := some "old", meta := none,
    type := "markdown", source := "guide", parentPageId := none }

/-- A store holding `pOld` and nothing else. -/
def stPre : St :=
  { db := { pages := [pOld], sections := [], nextPageId := 1, nextSectionId := 0 },
    trace := [] }

/-- A document whose `load()` (read + parse) fails. -/
def dFail : Doc := { path := "docs/a", parentPath := some "docs", load := .error () }

/-- A document with zero sections and no parent path. -/
def d10 : Doc :=
  { path := "docs/a", parentPath := none,
    load := .ok { checksum := "c", meta := none, sections := [] } }

/-- A document with zero sections and a parent path. -/
def d10b : Doc :=
  { path := "docs/a", parentPath := some "docs",
    load := .ok { checksum := "c", meta := none, sections := [] } }

/-- A fully indexed page at `docs/a` whose checksum is `c1`. -/
def pDone : Page :=
  { id := 0, path := "docs/a", checksum := some "c1", meta := none,
    type := "markdown", source := "guide", parentPageId := none }

/-- A store holding `pDone`. -/
def stDone : St :=
  { db := { pages := [pDone], sections := [], nextPageId := 1, nextSectionId := 0 },
    trace := [] }

/-- A document at `docs/a` whose fresh checksum equals `pDone`'s. -/
def dSame : Doc :=
  { path := "docs/a", parentPath := none,
    load := .ok { checksum := "c1", meta := none, sections := [{ content := "x" }] } }

/-- A two-section document that indexes successfully under `cfgOk`. -/
def dGood : Doc :=
  { path := "docs/b", parentPath := some "docs",
    load := .ok
      { checksum := "c2", meta := none,
        sections := [{ content := "pre" },
                     { content := "s1", heading := some "H", slug := some "h" }] } }

/-- An `mdxjsEsm` node exporting `meta` with a non-object initializer. -/
def metaNonObjectNode : Content :=
  { type := "mdxjsEsm",
    estree := some
      { body := [EsBodyItem.exportNamedDeclaration (some
          (EsDeclaration.variableDeclaration
            [{ id := EsDeclId.ident "meta", init := some EsExpr.otherExpr }]))] } }

/-- An `mdxjsEsm` node exporting `meta` as an object expression with one
string-valued property. -/
def metaObjectNode : Content :=
  { type := "mdxjsEsm",
    estree := some
      { body := [EsBodyItem.exportNamedDeclaration (some
          (EsDeclaration.variableDeclaration
            [{ id := EsDeclId.ident "meta",
               init := some (EsExpr.objectExpression
                 [ObjProp.property (PropKey.ident "a") (PropVal.lit (EsLit.str "x"))]) }]))] } }

/-- An `mdxjsEsm` node exporting `meta` as an object expression whose only
property has the literal value `false`. -/
def metaFalsyNode : Content :=
  { type := "mdxjsEsm",
    estree := some
      { body := [EsBodyItem.exportNamedDeclaration (some
          (EsDeclaration.variableDeclaration
            [{ id := EsDeclId.ident "meta",
               init := some (EsExpr.objectExpression
                 [ObjProp.property (PropKey.ident "flag") (PropVal.lit (EsLit.bool false))]) }]))] } }

/-- A heading node. -/
def headingNode : Content := { type := "heading" }

/-- A paragraph node. -/
def paragraphNode : Content := { type := "paragraph" }

/-- A cosine-distance stand-in that is identically zero. -/
def distZero : Emb → Emb → ℚ := fun _ _ => 0

/-- A page joined by the retrieval witness. -/
def pageA : Page :=
  { id := 1, path := "docs/a", checksum := some "c", meta := none,
    type := "markdown", source := "guide", parentPageId := none }

/-- A 60-character content string. -/
def longContent : String := String.mk (List.replicate 60 'a')

/-- An embedded section row owned by `pageA` with 60 characters of content. -/
def secA : PageSection :=
  { id := 7, pageId := 1, slug := none, heading := none, content := longContent,
    tokenCount := 3, embedding := some [0] }

/-! # Theorems -/

/-- C4: `formatPath` turns double-backslash separators into forward slashes,
strips two-digit-dash ordering prefixes and the `.mdx` extension, and on the
spec's first example produces exactly the canonical path. But the
trailing-index regex matches a *backslash* before `index` (its own line
comment says "/index"), so on `docs/guide/index.mdx` the code keeps the
`index` segment, returning `docs/guide/index` instead of the documented
`docs/guide`; the suffix is stripped only after a backslash, as the third
conjunct shows. -/
theorem c4_formatPath_eval :
    formatPath "docs\\\\02-app\\\\01-building-your-application\\\\01-routing\\\\08-parallel-routes.mdx"
        = "docs/app/building-your-application/routing/parallel-routes" ∧
    formatPath "docs/guide/index.mdx" = "docs/guide/index" ∧
    formatPath "docs\\guide\\index.mdx" = "docs\\guide" := by
  exact ⟨by decide, by decide, by decide⟩

/-- C9: a request whose `query` parameter is absent or empty receives the
client-error response, and no call to the embedding provider is made. -/
theorem c9_empty_query_rejected (api : String → Except Unit EmbeddingResult)
    (dist : Emb → Emb → ℚ) (pages : List Page) (secs : List PageSection)
    (qp : Option String) (h : qp = none ∨ qp = some "") :
    GET api dist pages secs qp = (.clientError, 0) := by
  rcases h with h | h <;> subst h <;> rfl

/-- Witness for C9 at a concrete empty-string query. -/
theorem c9_witness :
    GET (fun _ => .error ()) distZero [] [] (some "") = (.clientError, 0) :=
  c9_empty_query_rejected _ distZero [] [] (some "") (Or.inr rfl)

/-- A file entry among a directory's entries contributes exactly its joined
path together with the parent path in force. -/
theorem mem_walkAll_file (dir n : String) (pp : Option String) :
    ∀ entries : List FSEntry, FSEntry.file n ∈ entries →
      ({ path := pathJoin dir n, parentPath := pp } : WalkEntry) ∈ walkAll dir entries pp := by
  intro entries h
  induction entries with
  | nil => cases h
  | cons e rest ih =>
    cases h with
    | head => simp [walkAll]
    | tail _ hm =>
      cases e with
      | file m =>
        simp only [walkAll]
        exact List.mem_cons_of_mem _ (ih hm)
      | dir m sub =>
        simp only [walkAll]
        exact List.mem_append_right _ (ih hm)

/-- C5 counterexample: a directory containing `index.mdx` yields that very
document with a parent path equal to its own path, and the canonical parent
path equals the canonical own path — the claimed "never equals" fails. -/
theorem c5_counterexample :
    (walk "docs" [FSEntry.file "index.mdx"] none).map
        (fun e => (formatPath e.path, e.parentPath.map formatPath))
      = [("docs/index", some "docs/index")] := by
  simp only [walk, walkAll, List.mergeSort_singleton]
  decide

/-- C5 (amended): whenever a walked directory contains a file named
`index.mdx`, the walker emits that index document with `parentPath` equal to
its own path, so after canonicalization the page is linked as its own
parent; the linkage is therefore not always a forest. -/
theorem c5_index_self_parent (dir : String) (entries : List FSEntry)
    (pp : Option String) (h : FSEntry.file "index.mdx" ∈ entries) :
    ∃ e ∈ walk dir entries pp,
      e.path = pathJoin dir "index.mdx" ∧ e.parentPath = some e.path ∧
      e.parentPath.map formatPath = some (formatPath e.path) := by
  refine ⟨{ path := pathJoin dir "index.mdx",
            parentPath := some (pathJoin dir "index.mdx") }, ?_, rfl, rfl, rfl⟩
  have hname : "index.mdx" ∈ entries.map FSEntry.name := by
    exact List.mem_map_of_mem FSEntry.name h
  simp only [walk, List.mem_mergeSort]
  rw [if_pos (by simpa [List.elem_iff] using hname)]
  exact mem_walkAll_file dir "index.mdx" _ entries h

/-- Witness for C5: the concrete one-file directory. -/
theorem c5_witness :
    ∃ e ∈ walk "docs" [FSEntry.file "index.mdx"] none,
      e.path = pathJoin "docs" "index.mdx" ∧ e.parentPath = some e.path ∧
      e.parentPath.map formatPath = some (formatPath e.path) :=
  c5_index_self_parent "docs" [FSEntry.file "index.mdx"] none
    (List.mem_singleton_self _)

/-- One fold step on a non-empty accumulator: append to the last group
unless the predicate starts a new one. -/
theorem splitStep_concat (p : Content → Bool) (acc : List (List Content))
    (cur : List Content) (c : Content) :
    splitStep p (acc ++ [cur]) c =
      if p c then acc ++ [cur] ++ [[c]] else acc ++ [cur ++ [c]] := by
  simp [splitStep, List.getLast?_concat, List.dropLast_concat]

/-- The fold underlying `splitTreeBy` agrees with the structural recursion
`splitGo` once a first group exists. -/
theorem foldl_splitStep (p : Content → Bool) :
    ∀ (rest : List Content) (acc : List (List Content)) (cur : List Content),
      rest.foldl (splitStep p) (acc ++ [cur]) = acc ++ splitGo p cur rest := by
  intro rest
  induction rest with
  | nil => intro acc cur; simp [splitGo]
  | cons c rest ih =>
    intro acc cur
    rw [List.foldl_cons, splitStep_concat]
    cases hpc : p c
    · rw [if_neg (by simp [hpc]), ih acc (cur ++ [c])]
      simp [splitGo, hpc]
    · rw [if_pos (by simp [hpc]), ih (acc ++ [cur]) [c]]
      simp [splitGo, hpc]

/-- `splitTreeBy` on a non-empty child list is `splitGo` seeded with the
first child. -/
theorem splitTreeBy_cons (p : Content → Bool) (c : Content) (cs : List Content) :
    splitTreeBy (c :: cs) p = splitGo p [c] cs := by
  have h0 : splitStep p [] c = [] ++ [[c]] := by simp [splitStep]
  rw [splitTreeBy, List.foldl_cons, h0, foldl_splitStep]
  simp

/-- Flattening the groups restores the child list: splitting loses no node
and preserves document order. -/
theorem splitGo_flatten (p : Content → Bool) :
    ∀ (l cur : List Content), (splitGo p cur l).flatten = cur ++ l := by
  intro l
  induction l with
  | nil => intro cur; simp [splitGo]
  | cons c rest ih =>
    intro cur
    cases hpc : p c
    · simp [splitGo, hpc, ih]
    · simp [splitGo, hpc, ih]

/-- The number of groups is one more than the number of matching nodes. -/
theorem splitGo_length (p : Content → Bool) :
    ∀ (l cur : List Content), (splitGo p cur l).length = 1 + l.countP p := by
  intro l
  induction l with
  | nil => intro cur; simp [splitGo]
  | cons c rest ih =>
    intro cur
    cases hpc : p c
    · simp [splitGo, hpc, ih, List.countP_cons]
    · simp [splitGo, hpc, ih, List.countP_cons]
      omega

/-- Group structure: the first group extends the seed with non-matching
nodes; every later group starts with a matching node. -/
theorem splitGo_groups (p : Content → Bool) :
    ∀ (l cur : List Content), ∃ pre gs, splitGo p cur l = (cur ++ pre) :: gs ∧
      (∀ c ∈ pre, p c = false) ∧ (∀ g ∈ gs, ∃ h t, g = h :: t ∧ p h = true) := by
  intro l
  induction l with
  | nil => intro cur; exact ⟨[], [], by simp [splitGo], by simp, by simp⟩
  | cons c rest ih =>
    intro cur
    cases hpc : p c
    · obtain ⟨pre, gs, heq, hpre, hgs⟩ := ih (cur ++ [c])
      refine ⟨c :: pre, gs, ?_, ?_, hgs⟩
      · simp only [splitGo, hpc, Bool.false_eq_true, if_false, heq]
        simp
      · intro x hx
        rcases List.mem_cons.mp hx with rfl | hx
        · exact hpc
        · exact hpre x hx
    · obtain ⟨pre, gs, heq, hpre, hgs⟩ := ih [c]
      refine ⟨[], ([c] ++ pre) :: gs, ?_, by simp, ?_⟩
      · simp only [splitGo, hpc, if_true, heq]
        simp
      · intro g hg
        rcases List.mem_cons.mp hg with rfl | hg
        · exact ⟨c, pre, by simp, hpc⟩
        · exact hgs g hg

/-- With no matching node, everything lands in the current group. -/
theorem splitGo_of_no_match (p : Content → Bool) :
    ∀ (l cur : List Content), (∀ c ∈ l, p c = false) → splitGo p cur l = [cur ++ l] := by
  intro l
  induction l with
  | nil => intro cur _; simp [splitGo]
  | cons c rest ih =>
    intro cur h
    have hc : p c = false := h c (by simp)
    simp only [splitGo, hc, Bool.false_eq_true, if_false,
      ih (cur ++ [c]) (fun x hx => h x (by simp [hx]))]
    simp

/-- A matching node after a non-matching prefix closes the current group and
seeds the next one. -/
theorem splitGo_append_match (p : Content → Bool) :
    ∀ (l1 cur : List Content) (hd : Content) (l2 : List Content),
      (∀ c ∈ l1, p c = false) → p hd = true →
      splitGo p cur (l1 ++ hd :: l2) = (cur ++ l1) :: splitGo p [hd] l2 := by
  intro l1
  induction l1 with
  | nil => intro cur hd l2 _ hhd; simp [splitGo, hhd]
  | cons c rest ih =>
    intro cur hd l2 h hhd
    have hc : p c = false := h c (by simp)
    rw [List.cons_append]
    rw [show splitGo p cur (c :: (rest ++ hd :: l2))
          = splitGo p (cur ++ [c]) (rest ++ hd :: l2) by simp [splitGo, hc]]
    rw [ih (cur ++ [c]) hd l2 (fun x hx => h x (by simp [hx])) hhd]
    simp

/-- The section list is in bijection with the split groups. -/
theorem mkSections_length (ext : Externals) :
    ∀ (gs : List (List Content)) (seen : List String),
      (mkSections ext seen gs).length = gs.length := by
  intro gs
  induction gs with
  | nil => intro seen; rfl
  | cons t rest ih =>
    intro seen
    cases t with
    | nil => simp [mkSections, ih]
    | cons f ts =>
      cases hf : f.type == "heading"
      · simp [mkSections, hf, ih]
      · cases hh : ext.toStr f == ""
        · simp [mkSections, hf, hh, ih]
        · simp [mkSections, hf, hh, ih]

/-- C7: segmentation walks the cleaned top-level children in document order
(flattening the groups restores the child list); every group after the first
begins with a heading node; the number of groups is the number of headings
plus one extra leading group exactly when the document starts with
non-heading content; a non-empty preamble followed by two headings with
non-heading bodies yields exactly the three expected sections; and
`processMdxForSearch` emits one section per group. -/
theorem c7_segmentation :
    (∀ cs : List Content,
        (splitTreeBy cs (fun n => n.type == "heading")).flatten = cs) ∧
    (∀ cs : List Content,
        ∀ g ∈ (splitTreeBy cs (fun n => n.type == "heading")).tail,
          ∃ h t, g = h :: t ∧ h.type = "heading") ∧
    (∀ (c : Content) (cs : List Content),
        (splitTreeBy (c :: cs) (fun n => n.type == "heading")).length =
          (c :: cs).countP (fun n => n.type == "heading") +
            (if c.type = "heading" then 0 else 1)) ∧
    (∀ (pre b1 b2 : List Content) (h1 h2 : Content), pre ≠ [] →
        (∀ c ∈ pre, c.type ≠ "heading") → (∀ c ∈ b1, c.type ≠ "heading") →
        (∀ c ∈ b2, c.type ≠ "heading") → h1.type = "heading" → h2.type = "heading" →
        splitTreeBy (pre ++ h1 :: b1 ++ h2 :: b2) (fun n => n.type == "heading") =
          [pre, h1 :: b1, h2 :: b2]) ∧
    (∀ (ext : Externals) (content : String) (tree : Root),
        (processMdxForSearch ext content tree).sections.length =
          (splitTreeBy (tree.children.filter (fun n => !(mdxTypes.contains n.type)))
            (fun n => n.type == "heading")).length) := by
  refine ⟨?_, ?_, ?_, ?_, ?_⟩
  · intro cs
    cases cs with
    | nil => rfl
    | cons c rest =>
      rw [splitTreeBy_cons]
      exact splitGo_flatten _ rest [c]
  · intro cs g hg
    cases cs with
    | nil => cases hg
    | cons c rest =>
      rw [splitTreeBy_cons] at hg
      obtain ⟨pre, gs, heq, hpre, hgs⟩ := splitGo_groups _ rest [c]
      rw [heq] at hg
      obtain ⟨h, t, rfl, hh⟩ := hgs g hg
      exact ⟨h, t, rfl, by simpa using hh⟩
  · intro c cs
    rw [splitTreeBy_cons, splitGo_length]
    by_cases hc : c.type = "heading"
    · simp [List.countP_cons, hc]
      omega
    · simp [List.countP_cons, hc]
      omega
  · intro pre b1 b2 h1 h2 hne hpre hb1 hb2 hh1 hh2
    have hrw : pre ++ h1 :: b1 ++ h2 :: b2 = pre ++ (h1 :: (b1 ++ h2 :: b2)) := by
      simp
    rw [hrw]
    cases pre with
    | nil => exact absurd rfl hne
    | cons c0 pre' =>
      have hfalse : ∀ (l : List Content), (∀ c ∈ l, c.type ≠ "heading") →
          ∀ c ∈ l, (fun n => n.type == "heading") c = false := by
        intro l hl c hc
        simpa using hl c hc
      rw [List.cons_append, splitTreeBy_cons,
        splitGo_append_match _ pre' [c0] h1 (b1 ++ h2 :: b2)
          (hfalse pre' (fun c hc => hpre c (by simp [hc]))) (by simpa using hh1),
        splitGo_append_match _ b1 [h1] h2 b2 (hfalse b1 hb1) (by simpa using hh2),
        splitGo_of_no_match _ b2 [h2] (hfalse b2 hb2)]
      simp
  · intro ext content tree
    simp only [processMdxForSearch]
    exact mkSections_length ext _ []

/-- Witness for C7: a preamble, a heading, a paragraph and a second heading
split into the three expected sections. -/
theorem c7_witness :
    splitTreeBy [paragraphNode, headingNode, paragraphNode, headingNode]
        (fun n => n.type == "heading")
      = [[paragraphNode], [headingNode, paragraphNode], [headingNode]] := by
  have h := c7_segmentation.2.2.2.1 [paragraphNode] [paragraphNode] []
    headingNode headingNode (by simp) (by decide) (by decide) (by decide)
    (by decide) (by decide)
  simpa using h

/-- Looking up `k` after overwriting every `k`-keyed entry of a JS object:
the result is the fresh value when some entry had key `k`, nothing
otherwise. -/
theorem find?_map_overwrite (k : String) (v : Option EsLit) :
    ∀ obj : MetaObj,
      (obj.map (fun e => if e.1 == k then (k, v) else e)).find? (fun e => e.1 == k) =
        if obj.any (fun e => e.1 == k) then some (k, v) else none := by
  intro obj
  induction obj with
  | nil => simp
  | cons e rest ih =>
    by_cases he : e.1 = k
    · have hb : (e.1 == k) = true := by simpa using he
      have hf : (if e.1 == k then (k, v) else e) = (k, v) := by simp [he]
      rw [List.map_cons, hf, List.find?_cons_of_pos _ (by simp), List.any_cons, hb]
      simp
    · have hb : (e.1 == k) = false := by simpa using he
      have hf : (if e.1 == k then (k, v) else e) = e := by simp [he]
      rw [List.map_cons, hf, List.find?_cons_of_neg _ (by simp [he]), ih,
        List.any_cons, hb, Bool.false_or]

/-- Looking up `k` touches only `k`-keyed entries, so overwriting a
different key `m` changes nothing. -/
theorem find?_map_other (k m : String) (v : Option EsLit) (h : (m == k) = false) :
    ∀ obj : MetaObj,
      (obj.map (fun e => if e.1 == m then (m, v) else e)).find? (fun e => e.1 == k) =
        obj.find? (fun e => e.1 == k) := by
  have hmk : m ≠ k := by simpa using h
  intro obj
  induction obj with
  | nil => rfl
  | cons e rest ih =>
    by_cases hem : e.1 = m
    · have hf : (if e.1 == m then (m, v) else e) = (m, v) := by simp [hem]
      rw [List.map_cons, hf, List.find?_cons_of_neg _ (by simp [hmk]), ih,
        List.find?_cons_of_neg _ (by simp [hem, hmk])]
    · have hf : (if e.1 == m then (m, v) else e) = e := by simp [hem]
      by_cases hek : e.1 = k
      · rw [List.map_cons, hf, List.find?_cons_of_pos _ (by simp [hek]),
          List.find?_cons_of_pos _ (by simp [hek])]
      · rw [List.map_cons, hf, List.find?_cons_of_neg _ (by simp [hek]), ih,
          List.find?_cons_of_neg _ (by simp [hek])]

/-- After `objInsert obj k v`, looking up `k` yields `v`. -/
theorem find?_objInsert_self (obj : MetaObj) (k : String) (v : Option EsLit) :
    (objInsert obj k v).find? (fun e => e.1 == k) = some (k, v) := by
  unfold objInsert
  cases hany : obj.any (fun e => e.1 == k)
  · have hnone : obj.find? (fun e => e.1 == k) = none := by
      rw [List.find?_eq_none]
      intro x hx
      have := List.any_eq_false.mp hany x hx
      simpa using this
    rw [if_neg (by simp), List.find?_append, hnone]
    simp
  · rw [if_pos rfl, find?_map_overwrite, if_pos hany]

/-- After `objInsert obj m v` with `m ≠ k`, looking up `k` is unchanged. -/
theorem find?_objInsert_other (obj : MetaObj) (k m : String) (v : Option EsLit)
    (h : (m == k) = false) :
    (objInsert obj m v).find? (fun e => e.1 == k) = obj.find? (fun e => e.1 == k) := by
  unfold objInsert
  cases hany : obj.any (fun e => e.1 == m)
  · rw [if_neg (by simp), List.find?_append]
    have hlast : List.find? (fun e => e.1 == k) [(m, v)] = none := by
      simp [h]
    rw [hlast]
    simp
  · rw [if_pos rfl, find?_map_other k m v h]

/-- `objStep` on an identifier-keyed property with a non-empty name inserts
the truthiness-filtered value at that key. -/
theorem objStep_property_ident (obj : MetaObj) (nm : String) (value : PropVal)
    (h : (nm == "") = false) :
    objStep obj (ObjProp.property (PropKey.ident nm) value)
      = objInsert obj nm
          (match value with
           | PropVal.lit l => if l.truthy then some l else none
           | PropVal.nonLiteral => none) := by
  have hne : nm ≠ "" := by simpa using h
  simp [objStep, hne]

/-- C6 counterexample: the claim predicts (a) that the extractor skips a
`meta` export whose initializer is not an object expression in favor of a
later object-expression one, and (b) that a literal `false` value is
captured. The code returns `none` for (a) and drops the falsy literal to an
absent value for (b), as the second and third conjuncts show (the first
conjunct confirms the later node alone does produce the object). -/
theorem c6_counterexample :
    extractMetaExport { children := [metaObjectNode] }
        = some [("a", some (EsLit.str "x"))] ∧
    extractMetaExport { children := [metaNonObjectNode, metaObjectNode] } = none ∧
    extractMetaExport { children := [metaFalsyNode] } = some [("flag", none)] := by
  exact ⟨by decide, by decide, by decide⟩

/-- C6 (amended): meta extraction selects the *first* declaration exporting
an identifier named `meta` regardless of its initializer's form, and yields
an object only when that declaration's initializer is an object expression
(absent when no such declaration exists or the first one is not an object
expression). Property capture keeps identifier-keyed entries, later
occurrences of a key overwriting earlier ones, and an entry's value is the
property's literal value when that literal is truthy (non-empty string,
non-zero number, `true`) and absent when the literal is falsy or the value
is not a literal. -/
theorem c6_meta_extraction :
    (∀ tree : Root, (∀ n ∈ tree.children, isMetaExportNode n = false) →
        extractMetaExport tree = none) ∧
    (∀ (tree : Root) (n : Content) (es : Estree) (ds : List EsDeclarator)
        (d : EsDeclarator),
        tree.children.find? isMetaExportNode = some n →
        n.estree = some es →
        es.body.head? = some (EsBodyItem.exportNamedDeclaration
          (some (EsDeclaration.variableDeclaration ds))) →
        ds.head? = some d →
        extractMetaExport tree =
          (match d.init with
           | some (EsExpr.objectExpression props) => some (getObjectFromExpression props)
           | _ => none)) ∧
    (∀ (props : List ObjProp) (k : String),
        ((getObjectFromExpression props).find? (fun e => e.1 == k)).map Prod.snd =
          props.reverse.findSome? (fun pr =>
            match pr with
            | ObjProp.property (PropKey.ident nm) v =>
              if nm == k && !(nm == "") then
                some (match v with
                      | PropVal.lit l => if l.truthy then some l else none
                      | PropVal.nonLiteral => none)
              else none
            | _ => none)) := by
  refine ⟨?_, ?_, ?_⟩
  · intro tree h
    unfold extractMetaExport
    rw [List.find?_eq_none.mpr (fun x hx => by simp [h x hx])]
  · intro tree n es ds d hfind hes hbody hd
    have hpred := List.find?_some hfind
    have hid : d.id = EsDeclId.ident "meta" := by
      simp only [isMetaExportNode, hes, hbody, hd] at hpred
      cases hidc : d.id with
      | ident nm =>
        rw [hidc] at hpred
        simp at hpred
        rw [hpred.2]
      | otherPattern =>
        rw [hidc] at hpred
        simp at hpred
    unfold extractMetaExport
    rw [hfind]
    simp only [hes, hbody, hd, hid]
    simp
  · intro props k
    induction props using List.reverseRecOn with
    | nil => rfl
    | append_singleton l pr ih =>
      have hunf : getObjectFromExpression (l ++ [pr])
          = objStep (getObjectFromExpression l) pr := by
        simp [getObjectFromExpression, List.foldl_append]
      rw [hunf, List.reverse_append]
      simp only [List.reverse_cons, List.reverse_nil, List.nil_append,
        List.singleton_append, List.findSome?_cons]
      cases pr with
      | spread => simpa [objStep] using ih
      | property key value =>
        cases key with
        | other => simpa [objStep] using ih
        | ident nm =>
          cases hnm : nm == ""
          · rw [objStep_property_ident _ nm value hnm]
            cases hnk : nm == k
            · rw [find?_objInsert_other _ k nm _ hnk]
              simpa [hnk, hnm] using ih
            · have hnmk : nm = k := by simpa using hnk
              subst hnmk
              rw [find?_objInsert_self]
              simp [hnm]
          · have : nm = "" := by simpa using hnm
            subst this
            simpa [objStep] using ih

/-- Witness for C6: applying the amended theorem at the concrete
single-node tree exporting `meta = \x7b a: "x" \x7d`. -/
theorem c6_witness :
    extractMetaExport { children := [metaObjectNode] }
      = some (getObjectFromExpression
          [ObjProp.property (PropKey.ident "a") (PropVal.lit (EsLit.str "x"))]) := by
  have h := c6_meta_extraction.2.1 { children := [metaObjectNode] } metaObjectNode
    { body := [EsBodyItem.exportNamedDeclaration (some
        (EsDeclaration.variableDeclaration
          [{ id := EsDeclId.ident "meta",
             init := some (EsExpr.objectExpression
               [ObjProp.property (PropKey.ident "a") (PropVal.lit (EsLit.str "x"))]) }]))] }
    [{ id := EsDeclId.ident "meta",
       init := some (EsExpr.objectExpression
         [ObjProp.property (PropKey.ident "a") (PropVal.lit (EsLit.str "x"))]) }]
    { id := EsDeclId.ident "meta",
      init := some (EsExpr.objectExpression
        [ObjProp.property (PropKey.ident "a") (PropVal.lit (EsLit.str "x"))]) }
    (by decide) rfl rfl rfl
  simpa using h

/-- Membership in the joined-and-filtered row set, unfolded: a row qualifies
exactly when it comes from a section with a present embedding joined to a
page with the matching id, with similarity strictly above one half and
content strictly longer than 50 characters. -/
theorem mem_qualifyingRows (dist : Emb → Emb → ℚ) (pages : List Page)
    (secs : List PageSection) (q : Emb) (r : ResultRow) :
    r ∈ qualifyingRows dist pages secs q ↔
      ∃ ps ∈ secs, ∃ p ∈ pages, p.id = ps.pageId ∧
        ∃ e, ps.embedding = some e ∧ 1/2 < 1 - dist e q ∧ 50 < ps.content.length ∧
          r = { id := ps.id, pageId := ps.pageId, heading := ps.heading,
                content := ps.content, similarity := 1 - dist e q, path := p.path } := by
  unfold qualifyingRows
  rw [List.mem_flatMap]
  constructor
  · rintro ⟨ps, hps, hr⟩
    rw [List.mem_filterMap] at hr
    obtain ⟨p, hp, hval⟩ := hr
    rw [List.mem_filter] at hp
    obtain ⟨hpmem, hpid⟩ := hp
    cases hemb : ps.embedding with
    | none => rw [hemb] at hval; cases hval
    | some e =>
      rw [hemb] at hval
      by_cases hcond : 1 - dist e q > 1/2 ∧ ps.content.length > 50
      · rw [show (match some e with
              | some e =>
                if 1 - dist e q > 1/2 ∧ ps.content.length > 50 then
                  some ({ id := ps.id, pageId := ps.pageId, heading := ps.heading,
                          content := ps.content, similarity := 1 - dist e q,
                          path := p.path } : ResultRow)
                else none
              | none => none)
            = some ({ id := ps.id, pageId := ps.pageId, heading := ps.heading,
                      content := ps.content, similarity := 1 - dist e q,
                      path := p.path } : ResultRow) from if_pos hcond] at hval
        exact ⟨ps, hps, p, hpmem, by simpa using hpid, e, hemb, hcond.1, hcond.2,
          (Option.some.inj hval).symm⟩
      · rw [show (match some e with
              | some e =>
                if 1 - dist e q > 1/2 ∧ ps.content.length > 50 then
                  some ({ id := ps.id, pageId := ps.pageId, heading := ps.heading,
                          content := ps.content, similarity := 1 - dist e q,
                          path := p.path } : ResultRow)
                else none
              | none => none) = none from if_neg hcond] at hval
        cases hval
  · rintro ⟨ps, hps, p, hp, hpid, e, hemb, h1, h2, rfl⟩
    refine ⟨ps, hps, ?_⟩
    rw [List.mem_filterMap]
    refine ⟨p, ?_, ?_⟩
    · rw [List.mem_filter]
      exact ⟨hp, by simpa using hpid⟩
    · rw [hemb]
      exact if_pos ⟨h1, h2⟩

/-- C8: every returned row has similarity strictly above one half, content
strictly longer than 50 characters, and comes from a section joined to its
owning page's path; every such section-page pair qualifies; the rows are in
descending similarity order; at most 15 rows are returned (exactly the
qualifying count when that is below the cap); and when at most 15 rows
qualify the result is exactly the qualifying set. -/
theorem c8_retrieval (dist : Emb → Emb → ℚ) (pages : List Page)
    (secs : List PageSection) (q : Emb) :
    (∀ r ∈ queryRows dist pages secs q,
        1/2 < r.similarity ∧ 50 < r.content.length ∧
        ∃ ps ∈ secs, ∃ p ∈ pages, p.id = ps.pageId ∧ ps.id = r.id ∧
          ps.pageId = r.pageId ∧ ps.heading = r.heading ∧ ps.content = r.content ∧
          p.path = r.path ∧ ∃ e, ps.embedding = some e ∧ r.similarity = 1 - dist e q) ∧
    (∀ ps ∈ secs, ∀ p ∈ pages, p.id = ps.pageId → ∀ e, ps.embedding = some e →
        1/2 < 1 - dist e q → 50 < ps.content.length →
        ({ id := ps.id, pageId := ps.pageId, heading := ps.heading,
           content := ps.content, similarity := 1 - dist e q, path := p.path } : ResultRow)
          ∈ qualifyingRows dist pages secs q) ∧
    List.Pairwise (fun a b => b.similarity ≤ a.similarity)
      (queryRows dist pages secs q) ∧
    (queryRows dist pages secs q).length
      = min 15 (qualifyingRows dist pages secs q).length ∧
    ((qualifyingRows dist pages secs q).length ≤ 15 →
      (queryRows dist pages secs q).Perm (qualifyingRows dist pages secs q)) := by
  have htrans : ∀ a b c : ResultRow,
      decide (b.similarity ≤ a.similarity) → decide (c.similarity ≤ b.similarity) →
        decide (c.similarity ≤ a.similarity) := by
    intro a b c h1 h2
    simp only [decide_eq_true_eq] at *
    exact le_trans h2 h1
  have htotal : ∀ a b : ResultRow,
      decide (b.similarity ≤ a.similarity) || decide (a.similarity ≤ b.similarity) := by
    intro a b
    simpa using le_total b.similarity a.similarity
  refine ⟨?_, ?_, ?_, ?_, ?_⟩
  · intro r hr
    have hq : r ∈ qualifyingRows dist pages secs q := by
      have h1 : r ∈ (qualifyingRows dist pages secs q).mergeSort
          (fun a b => decide (b.similarity ≤ a.similarity)) :=
        List.mem_of_mem_take hr
      exact List.mem_mergeSort.mp h1
    obtain ⟨ps, hps, p, hp, hpid, e, hemb, h1, h2, rfl⟩ :=
      (mem_qualifyingRows dist pages secs q r).mp hq
    exact ⟨h1, h2, ps, hps, p, hp, hpid, rfl, rfl, rfl, rfl, rfl, e, hemb, rfl⟩
  · intro ps hps p hp hpid e hemb h1 h2
    exact (mem_qualifyingRows dist pages secs q _).mpr
      ⟨ps, hps, p, hp, hpid, e, hemb, h1, h2, rfl⟩
  · have hs := List.sorted_mergeSort htrans htotal (qualifyingRows dist pages secs q)
    have hst := List.Pairwise.sublist (List.take_sublist 15 _) hs
    exact hst.imp (fun h => by simpa using h)
  · simp [queryRows, List.length_take]
  · intro hle
    have hlen : ((qualifyingRows dist pages secs q).mergeSort
        (fun a b => decide (b.similarity ≤ a.similarity))).length ≤ 15 := by
      simpa using hle
    unfold queryRows
    rw [List.take_of_length_le hlen]
    exact List.mergeSort_perm _ _

/-- Witness for C8: one embedded 60-character section joined to its page
qualifies under the zero distance function. -/
theorem c8_witness :
    ({ id := 7, pageId := 1, heading := none, content := longContent,
       similarity := 1 - distZero [0] [], path := "docs/a" } : ResultRow)
      ∈ qualifyingRows distZero [pageA] [secA] [] := by
  have h := (c8_retrieval distZero [pageA] [secA] []).2.1 secA
    (List.mem_singleton_self _) pageA (List.mem_singleton_self _) rfl [0] rfl
    (by norm_num [distZero]) (by decide)
  simpa [secA, pageA] using h

/-- The section loop never touches the `page` table or its id counter. -/
theorem sectionLoop_pages (api : String → Except Unit EmbeddingResult) (pid : Nat) :
    ∀ (secs : List Section) (db : DB),
      (sectionLoop api pid secs db).2.1.pages = db.pages ∧
      (sectionLoop api pid secs db).2.1.nextPageId = db.nextPageId := by
  intro secs
  induction secs with
  | nil => intro db; exact ⟨rfl, rfl⟩
  | cons s rest ih =>
    intro db
    simp only [sectionLoop]
    cases hge : generateEmbedding api (concattedContent s) with
    | error e => exact ⟨rfl, rfl⟩
    | ok res => exact ih _

/-- Every effect of the section loop is a provider call, a section insert
or an embedding write. -/
theorem sectionLoop_ops_shape (api : String → Except Unit EmbeddingResult) (pid : Nat) :
    ∀ (secs : List Section) (db : DB), ∀ o ∈ (sectionLoop api pid secs db).2.2,
      (∃ i, o = Op.embedCall i) ∨ (∃ a b, o = Op.createSection a b) ∨
        (∃ a, o = Op.setEmbedding a) := by
  intro secs
  induction secs with
  | nil => intro db o ho; cases ho
  | cons s rest ih =>
    intro db o ho
    simp only [sectionLoop] at ho
    cases hge : generateEmbedding api (concattedContent s) with
    | error e =>
      rw [hge] at ho
      simp only [List.mem_singleton] at ho
      exact Or.inl ⟨_, ho⟩
    | ok res =>
      rw [hge] at ho
      rcases List.mem_cons.mp ho with rfl | ho
      · exact Or.inl ⟨_, rfl⟩
      rcases List.mem_cons.mp ho with rfl | ho
      · exact Or.inr (Or.inl ⟨_, _, rfl⟩)
      rcases List.mem_cons.mp ho with rfl | ho
      · exact Or.inr (Or.inr ⟨_, rfl⟩)
      · exact ih _ o ho

/-- When the loop returns success, the provider call succeeded for every
section, in particular for every section of the document. -/
theorem sectionLoop_ok_all (api : String → Except Unit EmbeddingResult) (pid : Nat) :
    ∀ (secs : List Section) (db : DB),
      (sectionLoop api pid secs db).1 = .ok () →
      ∀ s ∈ secs, ∃ r, generateEmbedding api (concattedContent s) = .ok r := by
  intro secs
  induction secs with
  | nil => intro db _ s hs; cases hs
  | cons s rest ih =>
    intro db hok t ht
    simp only [sectionLoop] at hok
    cases hge : generateEmbedding api (concattedContent s) with
    | error e => rw [hge] at hok; cases hok
    | ok res =>
      rw [hge] at hok
      rcases List.mem_cons.mp ht with rfl | ht
      · exact ⟨res, hge⟩
      · exact ih _ hok t ht

/-- Inserting a fresh section row for `pid` and then writing its embedding
keeps every section of `pid` embedded. -/
theorem SecOk_after_insert (db : DB) (pid : Nat) (sl hd : Option String)
    (ct : String) (tk : Nat) (e : Emb) (h : SecOk db pid) :
    SecOk (setSectionEmbedding (createSection db pid sl hd ct tk).2
      (createSection db pid sl hd ct tk).1.id e) pid := by
  intro s hs hpid
  simp only [createSection, setSectionEmbedding, List.map_append, List.mem_append,
    List.map_cons, List.map_nil] at hs
  rcases hs with hs | hs
  · obtain ⟨s0, hs0, rfl⟩ := List.mem_map.mp hs
    by_cases hid : s0.id = db.nextSectionId
    · simp only [hid, beq_self_eq_true, if_true]
      simp
    · have hb : (s0.id == db.nextSectionId) = false := by simpa using hid
      rw [if_neg (by simp [hid])] at hpid ⊢
      exact h s0 hs0 hpid
  · simp only [List.mem_singleton] at hs
    subst hs
    simp

/-- The loop preserves "all sections of `pid` are embedded", whether it
succeeds or aborts: every row it creates receives its embedding in the same
iteration, and aborting performs no partial insert. -/
theorem sectionLoop_secok (api : String → Except Unit EmbeddingResult) (pid : Nat) :
    ∀ (secs : List Section) (db : DB),
      SecOk db pid → SecOk (sectionLoop api pid secs db).2.1 pid := by
  intro secs
  induction secs with
  | nil => intro db h; exact h
  | cons s rest ih =>
    intro db h
    simp only [sectionLoop]
    cases hge : generateEmbedding api (concattedContent s) with
    | error e => exact h
    | ok res =>
      exact ih _ (SecOk_after_insert db pid s.slug s.heading s.content
        res.tokens res.vectors h)

/-- The loop keeps section ids below the counter. -/
theorem sectionLoop_secBound (api : String → Except Unit EmbeddingResult) (pid : Nat) :
    ∀ (secs : List Section) (db : DB),
      SecBound db → SecBound (sectionLoop api pid secs db).2.1 := by
  intro secs
  induction secs with
  | nil => intro db h; exact h
  | cons s rest ih =>
    intro db h
    simp only [sectionLoop]
    cases hge : generateEmbedding api (concattedContent s) with
    | error e => exact h
    | ok res =>
      have hstep : SecBound (setSectionEmbedding
          (createSection db pid s.slug s.heading s.content res.tokens).2
          (createSection db pid s.slug s.heading s.content res.tokens).1.id
          res.vectors) := by
        intro t ht
        simp only [createSection, setSectionEmbedding, List.map_append,
          List.mem_append, List.map_cons, List.map_nil] at ht ⊢
        rcases ht with ht | ht
        · obtain ⟨t0, ht0, rfl⟩ := List.mem_map.mp ht
          have := h t0 ht0
          by_cases hid : t0.id = db.nextSectionId
          · simp only [hid, beq_self_eq_true, if_true]
            omega
          · rw [if_neg (by simp [hid])]
            omega
        · simp only [List.mem_singleton] at ht
          subst ht
          simp only [beq_self_eq_true, if_true]
          omega
      exact ih _ hstep

/-- Every section row after the loop either shares its page id with a
pre-existing row or belongs to `pid`. -/
theorem sectionLoop_sections_pageIds (api : String → Except Unit EmbeddingResult)
    (pid : Nat) :
    ∀ (secs : List Section) (db : DB), ∀ s ∈ (sectionLoop api pid secs db).2.1.sections,
      (∃ s0 ∈ db.sections, s0.pageId = s.pageId) ∨ s.pageId = pid := by
  intro secs
  induction secs with
  | nil => intro db s hs; exact Or.inl ⟨s, hs, rfl⟩
  | cons s rest ih =>
    intro db t ht
    simp only [sectionLoop] at ht
    cases hge : generateEmbedding api (concattedContent s) with
    | error e => rw [hge] at ht; exact Or.inl ⟨t, ht, rfl⟩
    | ok res =>
      rw [hge] at ht
      rcases ih _ t ht with ⟨s0, hs0, hpg⟩ | hpg
      · simp only [createSection, setSectionEmbedding, List.map_append,
          List.mem_append, List.map_cons, List.map_nil] at hs0
        rcases hs0 with hs0 | hs0
        · obtain ⟨s1, hs1, rfl⟩ := List.mem_map.mp hs0
          refine Or.inl ⟨s1, hs1, ?_⟩
          rw [← hpg]
          by_cases hid : s1.id = db.nextSectionId
          · simp [hid]
          · rw [if_neg (by simp [hid])]
        · simp only [List.mem_singleton] at hs0
          subst hs0
          right
          rw [← hpg]
          simp
      · exact Or.inr hpg

/-- The loop preserves the completion invariant as long as every page with
id `pid` has a null checksum: rows it adds belong to `pid`, and it only
ever sets embeddings to present values. -/
theorem sectionLoop_inv (api : String → Except Unit EmbeddingResult) (pid : Nat) :
    ∀ (secs : List Section) (db : DB),
      (∀ p ∈ db.pages, p.id = pid → p.checksum = none) →
      Inv db → Inv (sectionLoop api pid secs db).2.1 := by
  intro secs
  induction secs with
  | nil => intro db _ h; exact h
  | cons s rest ih =>
    intro db hnull h
    simp only [sectionLoop]
    cases hge : generateEmbedding api (concattedContent s) with
    | error e => exact h
    | ok res =>
      have hstep : Inv (setSectionEmbedding
          (createSection db pid s.slug s.heading s.content res.tokens).2
          (createSection db pid s.slug s.heading s.content res.tokens).1.id
          res.vectors) := by
        intro p hp hck t ht hpg
        simp only [createSection, setSectionEmbedding, List.map_append,
          List.mem_append, List.map_cons, List.map_nil] at hp ht
        have hpne : p.id ≠ pid := fun hc => hck (hnull p hp hc)
        rcases ht with ht | ht
        · obtain ⟨t0, ht0, rfl⟩ := List.mem_map.mp ht
          by_cases hid : t0.id = db.nextSectionId
          · simp [hid]
          · rw [if_neg (by simp [hid])] at hpg ⊢
            exact h p hp hck t0 ht0 hpg
        · simp only [List.mem_singleton] at ht
          subst ht
          simp only [beq_self_eq_true, if_true] at hpg
          exact absurd hpg.symm (by simpa using hpne)
      exact ih _ (by
        intro p hp hpid
        simp only [createSection, setSectionEmbedding] at hp
        exact hnull p hp hpid) hstep

/-- A successful lookup by path returns a member of the table. -/
theorem findPageByPath_mem {db : DB} {path : String} {p : Page}
    (hf : findPageByPath db path = some p) : p ∈ db.pages := by
  unfold findPageByPath at hf
  exact List.mem_of_find?_eq_some hf

/-- A successful lookup by path returns a page with that path. -/
theorem findPageByPath_path {db : DB} {path : String} {p : Page}
    (hf : findPageByPath db path = some p) : p.path = path := by
  unfold findPageByPath at hf
  simpa using List.find?_some hf

/-- A failed lookup by path means no page carries that path. -/
theorem findPageByPath_none {db : DB} {path : String}
    (hf : findPageByPath db path = none) : ∀ q ∈ db.pages, q.path ≠ path := by
  unfold findPageByPath at hf
  intro q hq
  simpa using List.find?_eq_none.mp hf q hq

/-- The upserted page carries the target path and an explicitly null
checksum, and is present in the resulting table. -/
theorem upsertPage_basic (db : DB) (path ty src : String) (meta : Option MetaObj)
    (pp : Option Nat) :
    (upsertPage db path ty src meta pp).1.path = path ∧
    (upsertPage db path ty src meta pp).1.checksum = none ∧
    (upsertPage db path ty src meta pp).1 ∈ (upsertPage db path ty src meta pp).2.pages := by
  unfold upsertPage
  cases hf : findPageByPath db path with
  | none =>
    refine ⟨rfl, rfl, ?_⟩
    simp
  | some p =>
    have hp : p ∈ db.pages := findPageByPath_mem hf
    have hpath : (p.path == path) = true := by simpa using findPageByPath_path hf
    refine ⟨rfl, rfl, ?_⟩
    simp only [List.mem_map]
    exact ⟨p, hp, by rw [if_pos hpath]⟩

/-- Every page after the upsert is the upserted page or a pre-existing one. -/
theorem upsertPage_pages (db : DB) (path ty src : String) (meta : Option MetaObj)
    (pp : Option Nat) :
    ∀ q ∈ (upsertPage db path ty src meta pp).2.pages,
      q = (upsertPage db path ty src meta pp).1 ∨ q ∈ db.pages := by
  unfold upsertPage
  cases hf : findPageByPath db path with
  | none =>
    intro q hq
    rcases List.mem_append.mp hq with hq | hq
    · exact Or.inr hq
    · simp only [List.mem_singleton] at hq
      exact Or.inl hq
  | some p =>
    intro q hq
    obtain ⟨x, hx, rfl⟩ := List.mem_map.mp hq
    by_cases hxp : x.path == path
    · rw [if_pos hxp]
      exact Or.inl rfl
    · rw [if_neg hxp]
      exact Or.inr hx

/-- The upsert touches only the `page` table. -/
theorem upsertPage_sections (db : DB) (path ty src : String) (meta : Option MetaObj)
    (pp : Option Nat) :
    (upsertPage db path ty src meta pp).2.sections = db.sections ∧
    (upsertPage db path ty src meta pp).2.nextSectionId = db.nextSectionId := by
  unfold upsertPage
  cases hf : findPageByPath db path with
  | none => exact ⟨rfl, rfl⟩
  | some p => exact ⟨rfl, rfl⟩

/-- The update branch of the upsert rewrites pages pointwise, preserving id
and path of every member (path uniqueness pins the rewritten row). -/
theorem upsertPage_pointwise (db : DB) (path ty src : String) (meta : Option MetaObj)
    (pp : Option Nat) (hwf : WF db) (p : Page) (hf : findPageByPath db path = some p) :
    ∀ x ∈ db.pages,
      ((if x.path == path then (upsertPage db path ty src meta pp).1 else x).id = x.id ∧
       (if x.path == path then (upsertPage db path ty src meta pp).1 else x).path = x.path) := by
  intro x hx
  have hp : p ∈ db.pages := findPageByPath_mem hf
  have hpath : p.path = path := findPageByPath_path hf
  by_cases hxp : x.path = path
  · have hxep : x = p := by
      apply List.inj_on_of_nodup_map hwf.pagePathsNodup hx hp
      rw [hxp, hpath]
    rw [if_pos (by simpa using hxp)]
    subst hxep
    unfold upsertPage
    rw [hf]
    exact ⟨rfl, by simpa using hxp.symm⟩
  · rw [if_neg (by simpa using hxp)]
    exact ⟨rfl, rfl⟩

/-- The upsert preserves structural well-formedness. -/
theorem upsertPage_WF (db : DB) (path ty src : String) (meta : Option MetaObj)
    (pp : Option Nat) (hwf : WF db) : WF (upsertPage db path ty src meta pp).2 := by
  cases hf : findPageByPath db path with
  | some p =>
    have hpw := upsertPage_pointwise db path ty src meta pp hwf p hf
    have hpages : (upsertPage db path ty src meta pp).2.pages
        = db.pages.map (fun x => if x.path == path then (upsertPage db path ty src meta pp).1 else x) := by
      conv_lhs => unfold upsertPage
      rw [hf]
      unfold upsertPage
      rw [hf]
    have hid : (upsertPage db path ty src meta pp).2.pages.map Page.id
        = db.pages.map Page.id := by
      rw [hpages, List.map_map]
      exact List.map_congr_left (fun x hx => (hpw x hx).1)
    have hpth : (upsertPage db path ty src meta pp).2.pages.map Page.path
        = db.pages.map Page.path := by
      rw [hpages, List.map_map]
      exact List.map_congr_left (fun x hx => (hpw x hx).2)
    have hnext : (upsertPage db path ty src meta pp).2.nextPageId = db.nextPageId := by
      unfold upsertPage
      rw [hf]
    refine ⟨?_, ?_, ?_, ?_, ?_⟩
    · intro q hq
      rw [hpages] at hq
      obtain ⟨x, hx, rfl⟩ := List.mem_map.mp hq
      rw [hnext, (hpw x hx).1]
      exact hwf.pageIdBound x hx
    · intro s hs
      rw [(upsertPage_sections db path ty src meta pp).1] at hs
      rw [(upsertPage_sections db path ty src meta pp).2]
      exact hwf.secIdBound s hs
    · rw [hid]; exact hwf.pageIdsNodup
    · rw [hpth]; exact hwf.pagePathsNodup
    · intro s hs
      rw [(upsertPage_sections db path ty src meta pp).1] at hs
      obtain ⟨q, hq, hqid⟩ := hwf.secPageFk s hs
      refine ⟨(if q.path == path then (upsertPage db path ty src meta pp).1 else q), ?_, ?_⟩
      · rw [hpages]
        exact List.mem_map.mpr ⟨q, hq, rfl⟩
      · rw [(hpw q hq).1]; exact hqid
  | none =>
    have hfresh : ∀ q ∈ db.pages, q.path ≠ path := findPageByPath_none hf
    have hpages : (upsertPage db path ty src meta pp).2.pages
        = db.pages ++ [(upsertPage db path ty src meta pp).1] := by
      conv_lhs => unfold upsertPage
      rw [hf]
      unfold upsertPage
      rw [hf]
    have hnewid : (upsertPage db path ty src meta pp).1.id = db.nextPageId := by
      unfold upsertPage
      rw [hf]
    have hnewpath : (upsertPage db path ty src meta pp).1.path = path := by
      unfold upsertPage
      rw [hf]
    have hnext : (upsertPage db path ty src meta pp).2.nextPageId = db.nextPageId + 1 := by
      unfold upsertPage
      rw [hf]
    refine ⟨?_, ?_, ?_, ?_, ?_⟩
    · intro q hq
      rw [hpages] at hq
      rw [hnext]
      rcases List.mem_append.mp hq with hq | hq
      · have := hwf.pageIdBound q hq; omega
      · simp only [List.mem_singleton] at hq
        subst hq
        rw [hnewid]
        omega
    · intro s hs
      rw [(upsertPage_sections db path ty src meta pp).1] at hs
      rw [(upsertPage_sections db path ty src meta pp).2]
      exact hwf.secIdBound s hs
    · rw [hpages, List.map_append]
      simp only [List.map_cons, List.map_nil]
      rw [List.nodup_append]
      refine ⟨hwf.pageIdsNodup, List.nodup_singleton _, ?_⟩
      intro a ha hb
      simp only [List.mem_singleton] at hb
      subst hb
      obtain ⟨q, hq, hqid⟩ := List.mem_map.mp ha
      have := hwf.pageIdBound q hq
      rw [hqid, hnewid] at this
      omega
    · rw [hpages, List.map_append]
      simp only [List.map_cons, List.map_nil]
      rw [List.nodup_append]
      refine ⟨hwf.pagePathsNodup, List.nodup_singleton _, ?_⟩
      intro a ha hb
      simp only [List.mem_singleton] at hb
      subst hb
      obtain ⟨q, hq, hqpath⟩ := List.mem_map.mp ha
      rw [hnewpath] at hqpath
      exact hfresh q hq hqpath
    · intro s hs
      rw [(upsertPage_sections db path ty src meta pp).1] at hs
      obtain ⟨q, hq, hqid⟩ := hwf.secPageFk s hs
      exact ⟨q, by rw [hpages]; exact List.mem_append_left _ hq, hqid⟩

/-- With a well-formed store, the upserted page is the only page carrying
its id. -/
theorem upsertPage_id_unique (db : DB) (path ty src : String) (meta : Option MetaObj)
    (pp : Option Nat) (hwf : WF db) :
    ∀ q ∈ (upsertPage db path ty src meta pp).2.pages,
      q.id = (upsertPage db path ty src meta pp).1.id →
      q = (upsertPage db path ty src meta pp).1 := by
  have hwf' := upsertPage_WF db path ty src meta pp hwf
  intro q hq hid
  have hmem := (upsertPage_basic db path ty src meta pp).2.2
  exact List.inj_on_of_nodup_map hwf'.pageIdsNodup hq hmem hid

/-- The id the upsert assigns: the existing page's id when the path is
already present, the fresh counter value otherwise. -/
theorem upsertPage_id (db : DB) (path ty src : String) (meta : Option MetaObj)
    (pp : Option Nat) :
    (∀ p, findPageByPath db path = some p →
      (upsertPage db path ty src meta pp).1.id = p.id) ∧
    (findPageByPath db path = none →
      (upsertPage db path ty src meta pp).1.id = db.nextPageId) := by
  constructor
  · intro p hf
    unfold upsertPage
    rw [hf]
  · intro hf
    unfold upsertPage
    rw [hf]

/-- Rewriting pages with an id- and path-preserving function preserves
structural well-formedness. -/
theorem WF_map_pages (db : DB) (f : Page → Page)
    (hid : ∀ x, (f x).id = x.id) (hpath : ∀ x, (f x).path = x.path) (hwf : WF db) :
    WF { db with pages := db.pages.map f } := by
  have hidm : (db.pages.map f).map Page.id = db.pages.map Page.id := by
    rw [List.map_map]
    exact List.map_congr_left (fun x _ => hid x)
  have hpm : (db.pages.map f).map Page.path = db.pages.map Page.path := by
    rw [List.map_map]
    exact List.map_congr_left (fun x _ => hpath x)
  refine ⟨?_, hwf.secIdBound, ?_, ?_, ?_⟩
  · intro q hq
    obtain ⟨x, hx, rfl⟩ := List.mem_map.mp hq
    rw [hid]
    exact hwf.pageIdBound x hx
  · have := hwf.pageIdsNodup
    rw [← hidm] at this
    exact this
  · have := hwf.pagePathsNodup
    rw [← hpm] at this
    exact this
  · intro s hs
    obtain ⟨q, hq, hqid⟩ := hwf.secPageFk s hs
    exact ⟨f q, List.mem_map.mpr ⟨q, hq, rfl⟩, by rw [hid]; exact hqid⟩

/-- Rewriting pages with a function preserving id and checksum preserves
the completion invariant. -/
theorem Inv_map_pages (db : DB) (f : Page → Page)
    (hid : ∀ x, (f x).id = x.id) (hck : ∀ x, (f x).checksum = x.checksum)
    (hinv : Inv db) : Inv { db with pages := db.pages.map f } := by
  intro p hp hcksum s hs hpg
  obtain ⟨x, hx, rfl⟩ := List.mem_map.mp hp
  rw [hck] at hcksum
  rw [hid] at hpg
  exact hinv x hx hcksum s hs hpg

/-- Deleting a page's sections preserves well-formedness. -/
theorem deleteSectionsOf_WF (db : DB) (pid : Nat) (hwf : WF db) :
    WF (deleteSectionsOf db pid) := by
  refine ⟨hwf.pageIdBound, ?_, hwf.pageIdsNodup, hwf.pagePathsNodup, ?_⟩
  · intro s hs
    exact hwf.secIdBound s (List.mem_of_mem_filter hs)
  · intro s hs
    exact hwf.secPageFk s (List.mem_of_mem_filter hs)

/-- Deleting a page's sections preserves the completion invariant. -/
theorem deleteSectionsOf_inv (db : DB) (pid : Nat) (hinv : Inv db) :
    Inv (deleteSectionsOf db pid) := by
  intro p hp hck s hs hpg
  exact hinv p hp hck s (List.mem_of_mem_filter hs) hpg

/-- After the deletion, no section belongs to the deleted page. -/
theorem deleteSectionsOf_not_pid (db : DB) (pid : Nat) :
    ∀ s ∈ (deleteSectionsOf db pid).sections, s.pageId ≠ pid := by
  intro s hs
  have := List.of_mem_filter hs
  simpa using this

/-- The checksum update preserves well-formedness. -/
theorem updatePageChecksum_WF (db : DB) (pid : Nat) (c : Option String)
    (hwf : WF db) : WF (updatePageChecksum db pid c) := by
  refine WF_map_pages db _ ?_ ?_ hwf
  · intro x
    by_cases h : x.id = pid
    · simp [h]
    · rw [if_neg (by simp [h])]
  · intro x
    by_cases h : x.id = pid
    · simp [h]
    · rw [if_neg (by simp [h])]

/-- Setting a page's checksum to a present value preserves the completion
invariant provided every section of that page is embedded. -/
theorem updatePageChecksum_inv (db : DB) (pid : Nat) (c : String)
    (hsec : SecOk db pid) (hinv : Inv db) :
    Inv (updatePageChecksum db pid (some c)) := by
  intro p hp hck s hs hpg
  obtain ⟨x, hx, rfl⟩ := List.mem_map.mp hp
  by_cases h : x.id = pid
  · rw [if_pos (by simp [h])] at hpg
    simp only at hpg
    exact hsec s hs (by rw [hpg, h])
  · rw [if_neg (by simp [h])] at hck hpg
    exact hinv x hx hck s hs hpg

/-- The parent-link update preserves well-formedness. -/
theorem updatePageParent_WF (db : DB) (pid : Nat) (v : Option Nat) (hwf : WF db) :
    WF (updatePageParent db pid v) := by
  cases v with
  | none => exact hwf
  | some i =>
    refine WF_map_pages db _ ?_ ?_ hwf
    · intro x
      by_cases h : x.id = pid
      · simp [h]
      · rw [if_neg (by simp [h])]
    · intro x
      by_cases h : x.id = pid
      · simp [h]
      · rw [if_neg (by simp [h])]

/-- The parent-link update preserves the completion invariant. -/
theorem updatePageParent_inv (db : DB) (pid : Nat) (v : Option Nat) (hinv : Inv db) :
    Inv (updatePageParent db pid v) := by
  cases v with
  | none => exact hinv
  | some i =>
    refine Inv_map_pages db _ ?_ ?_ hinv
    · intro x
      by_cases h : x.id = pid
      · simp [h]
      · rw [if_neg (by simp [h])]
    · intro x
      by_cases h : x.id = pid
      · simp [h]
      · rw [if_neg (by simp [h])]

/-- The parent-link update changes neither the section table nor any page's
id, path or checksum. -/
theorem updatePageParent_fields (db : DB) (pid : Nat) (v : Option Nat) :
    (updatePageParent db pid v).sections = db.sections ∧
    (updatePageParent db pid v).pages.map (fun p => (p.id, p.path, p.checksum))
      = db.pages.map (fun p => (p.id, p.path, p.checksum)) := by
  cases v with
  | none => exact ⟨rfl, rfl⟩
  | some i =>
    refine ⟨rfl, ?_⟩
    show List.map _ (db.pages.map _) = _
    rw [List.map_map]
    refine List.map_congr_left ?_
    intro x _
    by_cases h : x.id = pid
    · simp [Function.comp, h]
    · simp [Function.comp, h]

/-- The section loop preserves well-formedness as long as the page whose
sections it inserts exists. -/
theorem sectionLoop_WF (api : String → Except Unit EmbeddingResult) (pid : Nat)
    (secs : List Section) (db : DB) (hwf : WF db)
    (hpid : ∃ p ∈ db.pages, p.id = pid) : WF (sectionLoop api pid secs db).2.1 := by
  obtain ⟨hpages, hnext⟩ := sectionLoop_pages api pid secs db
  refine ⟨?_, sectionLoop_secBound api pid secs db hwf.secIdBound, ?_, ?_, ?_⟩
  · intro p hp
    rw [hpages] at hp
    rw [hnext]
    exact hwf.pageIdBound p hp
  · rw [hpages]
    exact hwf.pageIdsNodup
  · rw [hpages]
    exact hwf.pagePathsNodup
  · intro s hs
    rcases sectionLoop_sections_pageIds api pid secs db s hs with ⟨s0, hs0, hpg⟩ | hpg
    · obtain ⟨q, hq, hqid⟩ := hwf.secPageFk s0 hs0
      exact ⟨q, by rw [hpages]; exact hq, by rw [hqid, hpg]⟩
    · obtain ⟨p, hp, hpid'⟩ := hpid
      exact ⟨p, by rw [hpages]; exact hp, by rw [hpid', hpg]⟩

/-- The delete step keeps the page table and the id counters. -/
theorem deleteStep_pages (db : DB) (ex : Option Page) :
    (deleteStep db ex).1.pages = db.pages ∧
    (deleteStep db ex).1.nextPageId = db.nextPageId ∧
    (deleteStep db ex).1.nextSectionId = db.nextSectionId := by
  cases ex <;> exact ⟨rfl, rfl, rfl⟩

/-- The delete step preserves well-formedness. -/
theorem deleteStep_WF (db : DB) (ex : Option Page) (hwf : WF db) :
    WF (deleteStep db ex).1 := by
  cases ex with
  | none => exact hwf
  | some ep => exact deleteSectionsOf_WF db ep.id hwf

/-- The delete step preserves the completion invariant. -/
theorem deleteStep_inv (db : DB) (ex : Option Page) (hinv : Inv db) :
    Inv (deleteStep db ex).1 := by
  cases ex with
  | none => exact hinv
  | some ep => exact deleteSectionsOf_inv db ep.id hinv

/-- The delete step's effects are section deletions only. -/
theorem deleteStep_ops (db : DB) (ex : Option Page) :
    ∀ o ∈ (deleteStep db ex).2, ∃ a, o = Op.deleteSections a := by
  cases ex with
  | none => intro o ho; cases ho
  | some ep =>
    intro o ho
    simp only [deleteStep, List.mem_singleton] at ho
    exact ⟨ep.id, ho⟩

/-- After the per-document delete and the `checksum: null` upsert, no
section row belongs to the upserted page: the existing page's rows were
just deleted, and a fresh page's id is referenced by no row. -/
theorem noSectionsOfUpserted (db : DB) (doc : Doc) (meta : Option MetaObj)
    (pp : Option Nat) (existing : Option Page) (hwf : WF db)
    (hex : findPageByPath db doc.path = existing) :
    ∀ s ∈ (upsertPage (deleteStep db existing).1 doc.path doc.type doc.source
        meta pp).2.sections,
      s.pageId ≠ (upsertPage (deleteStep db existing).1 doc.path doc.type doc.source
        meta pp).1.id := by
  intro s hs
  rw [(upsertPage_sections _ _ _ _ _ _).1] at hs
  cases existing with
  | some ep =>
    have hid : (upsertPage (deleteStep db (some ep)).1 doc.path doc.type doc.source
        meta pp).1.id = ep.id :=
      (upsertPage_id _ _ _ _ _ _).1 ep hex
    rw [hid]
    exact deleteSectionsOf_not_pid db ep.id s hs
  | none =>
    have hid : (upsertPage (deleteStep db none).1 doc.path doc.type doc.source
        meta pp).1.id = db.nextPageId :=
      (upsertPage_id _ _ _ _ _ _).2 hex
    rw [hid]
    obtain ⟨q, hq, hqid⟩ := hwf.secPageFk s hs
    have := hwf.pageIdBound q hq
    omega

/-- The skip branch leaves the section table untouched, changes no page's
id, path or checksum, performs at most a parent-link update for the
existing page, and does that only when the stored parent path differs from
the freshly computed one. -/
theorem skipBranch_effects (db : DB) (doc : Doc) (ep : Page) :
    (skipBranch db doc ep).1.sections = db.sections ∧
    (skipBranch db doc ep).1.pages.map (fun p => (p.id, p.path, p.checksum))
      = db.pages.map (fun p => (p.id, p.path, p.checksum)) ∧
    (∀ o ∈ (skipBranch db doc ep).2, ∃ v, o = Op.updateParent ep.id v) ∧
    ((skipBranch db doc ep).2 ≠ [] →
      (ep.parentPageId.bind (findPageById db)).map Page.path ≠ doc.parentPath) := by
  unfold skipBranch
  by_cases hpp : (ep.parentPageId.bind (findPageById db)).map Page.path ≠ doc.parentPath
  · rw [if_pos hpp]
    cases hfp : findPageByPathOpt db doc.parentPath with
    | error e => exact ⟨rfl, rfl, by simp, fun _ => hpp⟩
    | ok parentPage =>
      refine ⟨(updatePageParent_fields db ep.id _).1,
        (updatePageParent_fields db ep.id _).2, ?_, fun _ => hpp⟩
      intro o ho
      simp only [List.mem_singleton] at ho
      exact ⟨_, ho⟩
  · rw [if_neg hpp]
    exact ⟨rfl, rfl, by simp, fun h => absurd rfl h⟩

/-- The skip branch preserves well-formedness. -/
theorem skipBranch_WF (db : DB) (doc : Doc) (ep : Page) (hwf : WF db) :
    WF (skipBranch db doc ep).1 := by
  unfold skipBranch
  by_cases hpp : (ep.parentPageId.bind (findPageById db)).map Page.path ≠ doc.parentPath
  · rw [if_pos hpp]
    cases hfp : findPageByPathOpt db doc.parentPath with
    | error e => exact hwf
    | ok parentPage => exact updatePageParent_WF db ep.id _ hwf
  · rw [if_neg hpp]
    exact hwf

/-- The skip branch preserves the completion invariant. -/
theorem skipBranch_inv (db : DB) (doc : Doc) (ep : Page) (hinv : Inv db) :
    Inv (skipBranch db doc ep).1 := by
  unfold skipBranch
  by_cases hpp : (ep.parentPageId.bind (findPageById db)).map Page.path ≠ doc.parentPath
  · rw [if_pos hpp]
    cases hfp : findPageByPathOpt db doc.parentPath with
    | error e => exact hinv
    | ok parentPage => exact updatePageParent_inv db ep.id _ hinv
  · rw [if_neg hpp]
    exact hinv

/-- `reindexCore` preserves well-formedness. -/
theorem reindexCore_WF (cfg : Config) (doc : Doc) (pr : ProcessedMdx) (db1 : DB)
    (pp : Option Nat) (hwf1 : WF db1) : WF (reindexCore cfg doc pr db1 pp).1 := by
  have hwf2 := upsertPage_WF db1 doc.path doc.type doc.source pr.meta pp hwf1
  have hmem := (upsertPage_basic db1 doc.path doc.type doc.source pr.meta pp).2.2
  have hwf3 := sectionLoop_WF cfg.api
    (upsertPage db1 doc.path doc.type doc.source pr.meta pp).1.id pr.sections
    (upsertPage db1 doc.path doc.type doc.source pr.meta pp).2 hwf2 ⟨_, hmem, rfl⟩
  simp only [reindexCore]
  rcases hloop : sectionLoop cfg.api
      (upsertPage db1 doc.path doc.type doc.source pr.meta pp).1.id pr.sections
      (upsertPage db1 doc.path doc.type doc.source pr.meta pp).2 with ⟨r, db3, ops3⟩
  rw [hloop] at hwf3
  cases r with
  | ok u => exact updatePageChecksum_WF db3 _ _ hwf3
  | error e => exact hwf3

/-- `reindexCore` preserves the completion invariant: the upsert nulls the
checksum before any section work, and the checksum is restored only after
every section of the page is embedded. -/
theorem reindexCore_inv (cfg : Config) (doc : Doc) (pr : ProcessedMdx) (db1 : DB)
    (pp : Option Nat) (hwf1 : WF db1) (hinv1 : Inv db1)
    (hnosec : ∀ s ∈ (upsertPage db1 doc.path doc.type doc.source pr.meta pp).2.sections,
      s.pageId ≠ (upsertPage db1 doc.path doc.type doc.source pr.meta pp).1.id) :
    Inv (reindexCore cfg doc pr db1 pp).1 := by
  have hchk := (upsertPage_basic db1 doc.path doc.type doc.source pr.meta pp).2.1
  have hinv2 : Inv (upsertPage db1 doc.path doc.type doc.source pr.meta pp).2 := by
    intro p hp hck s hs hpg
    rcases upsertPage_pages db1 doc.path doc.type doc.source pr.meta pp p hp with heq | hp'
    · rw [heq] at hck
      exact absurd hchk hck
    · rw [(upsertPage_sections db1 doc.path doc.type doc.source pr.meta pp).1] at hs
      exact hinv1 p hp' hck s hs hpg
  have hnull : ∀ p ∈ (upsertPage db1 doc.path doc.type doc.source pr.meta pp).2.pages,
      p.id = (upsertPage db1 doc.path doc.type doc.source pr.meta pp).1.id →
      p.checksum = none := by
    intro p hp hid
    rw [upsertPage_id_unique db1 doc.path doc.type doc.source pr.meta pp hwf1 p hp hid]
    exact hchk
  have hsecok2 : SecOk (upsertPage db1 doc.path doc.type doc.source pr.meta pp).2
      (upsertPage db1 doc.path doc.type doc.source pr.meta pp).1.id := by
    intro s hs hpg
    exact absurd hpg (hnosec s hs)
  have hinv3 := sectionLoop_inv cfg.api
    (upsertPage db1 doc.path doc.type doc.source pr.meta pp).1.id pr.sections
    (upsertPage db1 doc.path doc.type doc.source pr.meta pp).2 hnull hinv2
  have hsecok3 := sectionLoop_secok cfg.api
    (upsertPage db1 doc.path doc.type doc.source pr.meta pp).1.id pr.sections
    (upsertPage db1 doc.path doc.type doc.source pr.meta pp).2 hsecok2
  simp only [reindexCore]
  rcases hloop : sectionLoop cfg.api
      (upsertPage db1 doc.path doc.type doc.source pr.meta pp).1.id pr.sections
      (upsertPage db1 doc.path doc.type doc.source pr.meta pp).2 with ⟨r, db3, ops3⟩
  rw [hloop] at hinv3 hsecok3
  cases r with
  | ok u => exact updatePageChecksum_inv db3 _ pr.checksum hsecok3 hinv3
  | error e => exact hinv3

/-- In `reindexCore`, a `setChecksum` of a present value can only be the
very last effect: it carries the freshly computed checksum, the
`checksum: null` upsert precedes it, and it happens only when the provider
call succeeded for every section of the document. -/
theorem reindexCore_checksum_ops (cfg : Config) (doc : Doc) (pr : ProcessedMdx)
    (db1 : DB) (pp : Option Nat) :
    ∀ pid c, Op.setChecksum pid (some c) ∈ (reindexCore cfg doc pr db1 pp).2 →
      (∃ pre, (reindexCore cfg doc pr db1 pp).2 = pre ++ [Op.setChecksum pid (some c)] ∧
        Op.upsertPage doc.path none ∈ pre) ∧
      c = pr.checksum ∧
      ∀ s ∈ pr.sections, ∃ r, generateEmbedding cfg.api (concattedContent s) = .ok r := by
  intro pid c
  have hshape := sectionLoop_ops_shape cfg.api
    (upsertPage db1 doc.path doc.type doc.source pr.meta pp).1.id pr.sections
    (upsertPage db1 doc.path doc.type doc.source pr.meta pp).2
  have hall := sectionLoop_ok_all cfg.api
    (upsertPage db1 doc.path doc.type doc.source pr.meta pp).1.id pr.sections
    (upsertPage db1 doc.path doc.type doc.source pr.meta pp).2
  simp only [reindexCore]
  rcases hloop : sectionLoop cfg.api
      (upsertPage db1 doc.path doc.type doc.source pr.meta pp).1.id pr.sections
      (upsertPage db1 doc.path doc.type doc.source pr.meta pp).2 with ⟨r, db3, ops3⟩
  rw [hloop] at hshape hall
  intro hmem
  cases r with
  | error e =>
    exfalso
    rcases List.mem_append.mp hmem with hmem | hmem
    · simp only [List.mem_singleton] at hmem
      cases hmem
    · rcases hshape _ hmem with ⟨i, hi⟩ | ⟨a, b, hab⟩ | ⟨a, ha⟩
      · cases hi
      · cases hab
      · cases ha
  | ok u =>
    have hlast : Op.setChecksum pid (some c)
        = Op.setChecksum
            (upsertPage db1 doc.path doc.type doc.source pr.meta pp).1.id
            (some pr.checksum) := by
      rcases List.mem_append.mp hmem with hin | hin
      · exfalso
        rcases List.mem_append.mp hin with hin | hin
        · simp only [List.mem_singleton] at hin
          cases hin
        · rcases hshape _ hin with ⟨i, hi⟩ | ⟨a, b, hab⟩ | ⟨a, ha⟩
          · cases hi
          · cases hab
          · cases ha
      · simpa using hin
    have hpc := hlast
    rw [Op.setChecksum.injEq] at hpc
    have hc : c = pr.checksum := Option.some.inj hpc.2
    have hpid : pid = (upsertPage db1 doc.path doc.type doc.source pr.meta pp).1.id :=
      hpc.1
    refine ⟨⟨[Op.upsertPage doc.path none] ++ ops3, ?_, by simp⟩, hc, ?_⟩
    · rw [hpid, hc]
    · intro s hs
      exact hall rfl s hs

/-- The re-index branch preserves well-formedness. -/
theorem reindexBranch_WF (cfg : Config) (db : DB) (doc : Doc) (pr : ProcessedMdx)
    (existing : Option Page) (hwf : WF db) :
    WF (reindexBranch cfg db doc pr existing).1 := by
  have hwf1 : WF (deleteStep db existing).1 := deleteStep_WF db existing hwf
  simp only [reindexBranch]
  cases hfp : findPageByPathOpt (deleteStep db existing).1 doc.parentPath with
  | error e => exact hwf1
  | ok parentPage =>
    exact reindexCore_WF cfg doc pr (deleteStep db existing).1
      (parentPage.map Page.id) hwf1

/-- The re-index branch preserves the completion invariant, given that
`existing` is indeed the lookup result for the document's path. -/
theorem reindexBranch_inv (cfg : Config) (db : DB) (doc : Doc) (pr : ProcessedMdx)
    (existing : Option Page) (hwf : WF db) (hinv : Inv db)
    (hex : findPageByPath db doc.path = existing) :
    Inv (reindexBranch cfg db doc pr existing).1 := by
  have hwf1 : WF (deleteStep db existing).1 := deleteStep_WF db existing hwf
  have hinv1 : Inv (deleteStep db existing).1 := deleteStep_inv db existing hinv
  simp only [reindexBranch]
  cases hfp : findPageByPathOpt (deleteStep db existing).1 doc.parentPath with
  | error e => exact hinv1
  | ok parentPage =>
    exact reindexCore_inv cfg doc pr (deleteStep db existing).1
      (parentPage.map Page.id) hwf1 hinv1
      (noSectionsOfUpserted db doc pr.meta (parentPage.map Page.id) existing hwf hex)

/-- In the re-index branch, a `setChecksum` of a present value can only be
the very last effect, preceded by the `checksum: null` upsert, and only
after the provider call succeeded for every section. -/
theorem reindexBranch_checksum_ops (cfg : Config) (db : DB) (doc : Doc)
    (pr : ProcessedMdx) (existing : Option Page) :
    ∀ pid c, Op.setChecksum pid (some c) ∈ (reindexBranch cfg db doc pr existing).2 →
      (∃ pre, (reindexBranch cfg db doc pr existing).2
          = pre ++ [Op.setChecksum pid (some c)] ∧
        Op.upsertPage doc.path none ∈ pre) ∧
      c = pr.checksum ∧
      ∀ s ∈ pr.sections, ∃ r, generateEmbedding cfg.api (concattedContent s) = .ok r := by
  intro pid c
  have hdel : ∀ o ∈ (deleteStep db existing).2, ∃ a, o = Op.deleteSections a :=
    deleteStep_ops db existing
  simp only [reindexBranch]
  cases hfp : findPageByPathOpt (deleteStep db existing).1 doc.parentPath with
  | error e =>
    intro hmem
    obtain ⟨a, ha⟩ := hdel _ hmem
    cases ha
  | ok parentPage =>
    intro hmem
    have hmem' : Op.setChecksum pid (some c) ∈ (deleteStep db existing).2 ++
        (reindexCore cfg doc pr (deleteStep db existing).1 (parentPage.map Page.id)).2 :=
      hmem
    have hnotdel : Op.setChecksum pid (some c) ∉ (deleteStep db existing).2 := by
      intro hin
      obtain ⟨a, ha⟩ := hdel _ hin
      cases ha
    have hcoremem : Op.setChecksum pid (some c)
        ∈ (reindexCore cfg doc pr (deleteStep db existing).1 (parentPage.map Page.id)).2 := by
      rcases List.mem_append.mp hmem' with hin | hin
      · exact absurd hin hnotdel
      · exact hin
    obtain ⟨⟨pre, hpre, hupsert⟩, hc, hallok⟩ :=
      reindexCore_checksum_ops cfg doc pr (deleteStep db existing).1
        (parentPage.map Page.id) pid c hcoremem
    have hstmt : (∃ pre2, (deleteStep db existing).2 ++
          (reindexCore cfg doc pr (deleteStep db existing).1 (parentPage.map Page.id)).2
            = pre2 ++ [Op.setChecksum pid (some c)] ∧
          Op.upsertPage doc.path none ∈ pre2) ∧
        c = pr.checksum ∧
        ∀ s ∈ pr.sections, ∃ r, generateEmbedding cfg.api (concattedContent s) = .ok r := by
      refine ⟨⟨(deleteStep db existing).2 ++ pre, ?_, ?_⟩, hc, hallok⟩
      · rw [hpre]
        simp
      · exact List.mem_append_right _ hupsert
    exact hstmt

/-- Branch equation: a document whose load fails is a no-op. -/
theorem processDocOps_eq_err (cfg : Config) (db : DB) (doc : Doc) (e : Unit)
    (hload : doc.load = .error e) : processDocOps cfg db doc = (db, []) := by
  unfold processDocOps
  rw [hload]

/-- Branch equation: loaded document with an existing page at its path. -/
theorem processDocOps_eq_some (cfg : Config) (db : DB) (doc : Doc) (pr : ProcessedMdx)
    (ep : Page) (hload : doc.load = .ok pr)
    (hfind : findPageByPath db doc.path = some ep) :
    processDocOps cfg db doc
      = if !cfg.shouldRefresh && ep.checksum == some pr.checksum then skipBranch db doc ep
        else reindexBranch cfg db doc pr (some ep) := by
  unfold processDocOps
  rw [hload, hfind]

/-- Branch equation: loaded document with no existing page at its path. -/
theorem processDocOps_eq_none (cfg : Config) (db : DB) (doc : Doc) (pr : ProcessedMdx)
    (hload : doc.load = .ok pr) (hfind : findPageByPath db doc.path = none) :
    processDocOps cfg db doc = reindexBranch cfg db doc pr none := by
  unfold processDocOps
  rw [hload, hfind]

/-- One document's processing preserves well-formedness. -/
theorem processDocOps_WF (cfg : Config) (db : DB) (doc : Doc) (hwf : WF db) :
    WF (processDocOps cfg db doc).1 := by
  cases hload : doc.load with
  | error e =>
    rw [processDocOps_eq_err cfg db doc e hload]
    exact hwf
  | ok pr =>
    cases hfind : findPageByPath db doc.path with
    | some ep =>
      rw [processDocOps_eq_some cfg db doc pr ep hload hfind]
      cases hskip : (!cfg.shouldRefresh && ep.checksum == some pr.checksum)
      · rw [if_neg (by simp)]
        exact reindexBranch_WF cfg db doc pr (some ep) hwf
      · rw [if_pos rfl]
        exact skipBranch_WF db doc ep hwf
    | none =>
      rw [processDocOps_eq_none cfg db doc pr hload hfind]
      exact reindexBranch_WF cfg db doc pr none hwf

/-- One document's processing preserves the completion invariant. -/
theorem processDocOps_inv (cfg : Config) (db : DB) (doc : Doc) (hwf : WF db)
    (hinv : Inv db) : Inv (processDocOps cfg db doc).1 := by
  cases hload : doc.load with
  | error e =>
    rw [processDocOps_eq_err cfg db doc e hload]
    exact hinv
  | ok pr =>
    cases hfind : findPageByPath db doc.path with
    | some ep =>
      rw [processDocOps_eq_some cfg db doc pr ep hload hfind]
      cases hskip : (!cfg.shouldRefresh && ep.checksum == some pr.checksum)
      · rw [if_neg (by simp)]
        exact reindexBranch_inv cfg db doc pr (some ep) hwf hinv hfind
      · rw [if_pos rfl]
        exact skipBranch_inv db doc ep hinv
    | none =>
      rw [processDocOps_eq_none cfg db doc pr hload hfind]
      exact reindexBranch_inv cfg db doc pr none hwf hinv hfind

/-- A full run preserves well-formedness and the completion invariant. -/
theorem indexFiles_wf_inv (cfg : Config) :
    ∀ (docs : List Doc) (st : St), WF st.db → Inv st.db →
      WF (indexFiles cfg docs st).db ∧ Inv (indexFiles cfg docs st).db := by
  intro docs
  induction docs with
  | nil => intro st hwf hinv; exact ⟨hwf, hinv⟩
  | cons d rest ih =>
    intro st hwf hinv
    exact ih (processDoc cfg st d) (processDocOps_WF cfg st.db d hwf)
      (processDocOps_inv cfg st.db d hwf hinv)

/-- Across the whole per-document processing, a `setChecksum` of a present
value can only be the last effect, preceded by the `checksum: null` upsert,
with the freshly computed value, and only after every section's provider
call succeeded. -/
theorem processDocOps_checksum_ops (cfg : Config) (db : DB) (doc : Doc) :
    ∀ pid c, Op.setChecksum pid (some c) ∈ (processDocOps cfg db doc).2 →
      (∃ pre, (processDocOps cfg db doc).2 = pre ++ [Op.setChecksum pid (some c)] ∧
        Op.upsertPage doc.path none ∈ pre) ∧
      ∃ pr, doc.load = .ok pr ∧ c = pr.checksum ∧
        ∀ s ∈ pr.sections, ∃ r, generateEmbedding cfg.api (concattedContent s) = .ok r := by
  intro pid c
  cases hload : doc.load with
  | error e =>
    rw [processDocOps_eq_err cfg db doc e hload]
    intro hmem
    cases hmem
  | ok pr =>
    cases hfind : findPageByPath db doc.path with
    | some ep =>
      rw [processDocOps_eq_some cfg db doc pr ep hload hfind]
      cases hskip : (!cfg.shouldRefresh && ep.checksum == some pr.checksum)
      · rw [if_neg (by simp)]
        intro hmem
        obtain ⟨hpre, hc, hall⟩ :=
          reindexBranch_checksum_ops cfg db doc pr (some ep) pid c hmem
        exact ⟨hpre, pr, rfl, hc, hall⟩
      · rw [if_pos rfl]
        intro hmem
        obtain ⟨v, hv⟩ := (skipBranch_effects db doc ep).2.2.1 _ hmem
        cases hv
    | none =>
      rw [processDocOps_eq_none cfg db doc pr hload hfind]
      intro hmem
      obtain ⟨hpre, hc, hall⟩ :=
        reindexBranch_checksum_ops cfg db doc pr none pid c hmem
      exact ⟨hpre, pr, rfl, hc, hall⟩

/-- C1 counterexample: a document whose only embedding call fails leaves a
page with a null checksum and zero section rows, so "every section of the
page has a non-absent embedding" holds vacuously while the checksum is
null — the claimed equivalence fails in the right-to-left direction. -/
theorem c1_counterexample :
    ∃ p ∈ (indexFiles cfgFail [d0] st0).db.pages,
      (∀ s ∈ (indexFiles cfgFail [d0] st0).db.sections, s.pageId = p.id →
        s.embedding ≠ none) ∧ p.checksum = none := by decide

/-- C1 (amended): after any run from a well-formed store satisfying the
invariant, a page with a non-null checksum has all its section rows
embedded (the converse direction fails for pages whose indexing was
interrupted); and per document, the checksum is written with the freshly
computed value only as the final store operation, after the section loop
succeeded for every section, with the page upsert that explicitly nulls
the checksum strictly earlier. -/
theorem c1_checksum_completion (cfg : Config) :
    (∀ (st : St) (docs : List Doc), WF st.db → Inv st.db →
        Inv (indexFiles cfg docs st).db) ∧
    (∀ (st : St) (doc : Doc), ∃ ops, (processDoc cfg st doc).trace = st.trace ++ ops ∧
        ∀ pid c, Op.setChecksum pid (some c) ∈ ops →
          (∃ pre, ops = pre ++ [Op.setChecksum pid (some c)] ∧
            Op.upsertPage doc.path none ∈ pre) ∧
          ∃ pr, doc.load = .ok pr ∧ c = pr.checksum ∧
            ∀ s ∈ pr.sections, ∃ r,
              generateEmbedding cfg.api (concattedContent s) = .ok r) := by
  constructor
  · intro st docs hwf hinv
    exact (indexFiles_wf_inv cfg docs st hwf hinv).2
  · intro st doc
    exact ⟨(processDocOps cfg st.db doc).2, rfl,
      processDocOps_checksum_ops cfg st.db doc⟩

/-- Witness for C1: the invariant holds after a successful run over the
empty store. -/
theorem c1_witness : Inv (indexFiles cfgOk [dGood] st0).db :=
  (c1_checksum_completion cfgOk).1 st0 [dGood]
    (by constructor <;> simp [st0, SecBound])
    (by intro p hp; cases hp)

/-- C2: when the stored checksum matches the fresh one and no refresh is
forced, the document is skipped: the section table is untouched, no page's
id, path or checksum changes, no provider call happens, and the only
possible effect is a parent-link update of the existing page, performed
only when the stored parent page's path differs from the freshly computed
parent path. -/
theorem c2_unchanged_skip (cfg : Config) (st : St) (doc : Doc) (pr : ProcessedMdx)
    (ep : Page) (hload : doc.load = .ok pr)
    (hfind : findPageByPath st.db doc.path = some ep)
    (hck : ep.checksum = some pr.checksum)
    (hrefresh : cfg.shouldRefresh = false) :
    ∃ ops, (processDoc cfg st doc).trace = st.trace ++ ops ∧
      (∀ o ∈ ops, ∃ v, o = Op.updateParent ep.id v) ∧
      (ops ≠ [] →
        (ep.parentPageId.bind (findPageById st.db)).map Page.path ≠ doc.parentPath) ∧
      (processDoc cfg st doc).db.sections = st.db.sections ∧
      (processDoc cfg st doc).db.pages.map (fun p => (p.id, p.path, p.checksum))
        = st.db.pages.map (fun p => (p.id, p.path, p.checksum)) := by
  have hops : processDocOps cfg st.db doc = skipBranch st.db doc ep := by
    rw [processDocOps_eq_some cfg st.db doc pr ep hload hfind]
    rw [if_pos (by simp [hck, hrefresh])]
  refine ⟨(skipBranch st.db doc ep).2, ?_, (skipBranch_effects st.db doc ep).2.2.1,
    (skipBranch_effects st.db doc ep).2.2.2, ?_, ?_⟩
  · show st.trace ++ (processDocOps cfg st.db doc).2 = st.trace ++ (skipBranch st.db doc ep).2
    rw [hops]
  · show (processDocOps cfg st.db doc).1.sections = st.db.sections
    rw [hops]
    exact (skipBranch_effects st.db doc ep).1
  · show (processDocOps cfg st.db doc).1.pages.map _ = _
    rw [hops]
    exact (skipBranch_effects st.db doc ep).2.1

/-- Witness for C2: a second run over an already indexed document leaves
the section table untouched. -/
theorem c2_witness :
    (processDoc cfgOk stDone dSame).db.sections = stDone.db.sections := by
  obtain ⟨ops, htr, hsh, hne, hsec, hpg⟩ :=
    c2_unchanged_skip cfgOk stDone dSame
      { checksum := "c1", meta := none, sections := [{ content := "x" }] } pDone
      rfl (by decide) rfl rfl
  exact hsec

/-- When the section loop must fail (some section's provider call errors),
`reindexCore` leaves the upserted page with a null checksum. -/
theorem reindexCore_fail_null (cfg : Config) (doc : Doc) (pr : ProcessedMdx)
    (db1 : DB) (pp : Option Nat)
    (hfail : ∃ s ∈ pr.sections, generateEmbedding cfg.api (concattedContent s) = .error ()) :
    ∃ p ∈ (reindexCore cfg doc pr db1 pp).1.pages, p.path = doc.path ∧
      p.checksum = none := by
  have hb := upsertPage_basic db1 doc.path doc.type doc.source pr.meta pp
  have hpg := sectionLoop_pages cfg.api
    (upsertPage db1 doc.path doc.type doc.source pr.meta pp).1.id pr.sections
    (upsertPage db1 doc.path doc.type doc.source pr.meta pp).2
  have hall := sectionLoop_ok_all cfg.api
    (upsertPage db1 doc.path doc.type doc.source pr.meta pp).1.id pr.sections
    (upsertPage db1 doc.path doc.type doc.source pr.meta pp).2
  simp only [reindexCore]
  rcases hloop : sectionLoop cfg.api
      (upsertPage db1 doc.path doc.type doc.source pr.meta pp).1.id pr.sections
      (upsertPage db1 doc.path doc.type doc.source pr.meta pp).2 with ⟨r, db3, ops3⟩
  rw [hloop] at hpg hall
  cases r with
  | ok u =>
    exfalso
    obtain ⟨s, hs, herr⟩ := hfail
    obtain ⟨rr, hrr⟩ := hall rfl s hs
    rw [herr] at hrr
    cases hrr
  | error e =>
    refine ⟨(upsertPage db1 doc.path doc.type doc.source pr.meta pp).1, ?_,
      hb.1, hb.2.1⟩
    have : db3.pages = (upsertPage db1 doc.path doc.type doc.source pr.meta pp).2.pages :=
      hpg.1
    rw [this]
    exact hb.2.2

/-- C3 counterexample: a document whose `load()` fails leaves the store
untouched, so an existing page keeps its previous non-null checksum — the
claim's "leaves that page's checksum null" fails for failures that occur
before the upsert. -/
theorem c3_counterexample :
    (indexFiles cfgFail [dFail] stPre).db = stPre.db ∧
    ∃ p ∈ stPre.db.pages, p.path = dFail.path ∧ p.checksum = some "old" := by decide

/-- C3 (amended): a per-document failure is caught at that document's
boundary and never prevents processing of the remaining documents; a
`load()` (parse) failure occurs before any store write and leaves the
store — in particular an existing page's previous checksum — untouched;
a provider failure inside the section loop of a re-indexed document leaves
that page's checksum null. -/
theorem c3_failure_isolation (cfg : Config) :
    (∀ (st : St) (d : Doc) (rest : List Doc),
        indexFiles cfg (d :: rest) st = indexFiles cfg rest (processDoc cfg st d)) ∧
    (∀ (st : St) (d : Doc), d.load = .error () → processDoc cfg st d = st) ∧
    (∀ (st : St) (d : Doc) (pr : ProcessedMdx), d.load = .ok pr →
        (∀ ep, findPageByPath st.db d.path = some ep →
          cfg.shouldRefresh = true ∨ ep.checksum ≠ some pr.checksum) →
        (∃ p', d.parentPath = some p') →
        (∃ s ∈ pr.sections, generateEmbedding cfg.api (concattedContent s) = .error ()) →
        ∃ p ∈ (processDoc cfg st d).db.pages, p.path = d.path ∧ p.checksum = none) := by
  refine ⟨fun st d rest => rfl, ?_, ?_⟩
  · intro st d hload
    cases st with
    | mk db trace => simp [processDoc, processDocOps, hload]
  · intro st d pr hload hnoskip hpp hfail
    have hops : processDocOps cfg st.db d
        = reindexBranch cfg st.db d pr (findPageByPath st.db d.path) := by
      cases hfind : findPageByPath st.db d.path with
      | none => rw [processDocOps_eq_none cfg st.db d pr hload hfind]
      | some ep =>
        rw [processDocOps_eq_some cfg st.db d pr ep hload hfind]
        rcases hnoskip ep hfind with hr | hc
        · rw [if_neg (by simp [hr])]
        · rw [if_neg (by simp [hc])]
    show ∃ p ∈ (processDocOps cfg st.db d).1.pages, p.path = d.path ∧ p.checksum = none
    rw [hops]
    obtain ⟨p', hp'⟩ := hpp
    simp only [reindexBranch]
    rw [hp']
    exact reindexCore_fail_null cfg d pr (deleteStep st.db (findPageByPath st.db d.path)).1
      ((findPageByPath (deleteStep st.db (findPageByPath st.db d.path)).1 p').map Page.id)
      hfail

/-- Witness for C3: a one-section document whose provider call fails leaves
its page with a null checksum. -/
theorem c3_witness :
    ∃ p ∈ (processDoc cfgFail st0 d0).db.pages, p.path = d0.path ∧ p.checksum = none := by
  exact (c3_failure_isolation cfgFail).2.2 st0 d0
    { checksum := "c1", meta := none, sections := [{ content := "x" }] } rfl
    (by intro ep hep; cases hep)
    ⟨"docs", rfl⟩
    ⟨{ content := "x" }, by simp, rfl⟩

/-- With zero sections, `reindexCore` completes the page immediately: the
upserted page gets the fresh checksum, owns no section row, and the only
effects are the upsert and the final checksum write. -/
theorem reindexCore_empty_done (cfg : Config) (doc : Doc) (pr : ProcessedMdx)
    (db1 : DB) (pp : Option Nat) (hsec : pr.sections = [])
    (hnosec : ∀ s ∈ (upsertPage db1 doc.path doc.type doc.source pr.meta pp).2.sections,
      s.pageId ≠ (upsertPage db1 doc.path doc.type doc.source pr.meta pp).1.id) :
    (∃ p ∈ (reindexCore cfg doc pr db1 pp).1.pages, p.path = doc.path ∧
        p.checksum = some pr.checksum ∧
        ∀ s ∈ (reindexCore cfg doc pr db1 pp).1.sections, s.pageId ≠ p.id) ∧
    (reindexCore cfg doc pr db1 pp).2
      = [Op.upsertPage doc.path none,
         Op.setChecksum (upsertPage db1 doc.path doc.type doc.source pr.meta pp).1.id
           (some pr.checksum)] := by
  have hb := upsertPage_basic db1 doc.path doc.type doc.source pr.meta pp
  simp only [reindexCore, hsec, sectionLoop]
  constructor
  · refine ⟨{ (upsertPage db1 doc.path doc.type doc.source pr.meta pp).1 with
        checksum := some pr.checksum }, ?_, ?_, rfl, ?_⟩
    · simp only [updatePageChecksum]
      refine List.mem_map.mpr ⟨(upsertPage db1 doc.path doc.type doc.source pr.meta pp).1,
        hb.2.2, ?_⟩
      rw [if_pos (by simp)]
    · exact hb.1
    · intro s hs hpg
      exact hnosec s hs (by simpa using hpg)
  · rfl

/-- C10 counterexample: a zero-section document with no parent path is not
completed — Prisma's parent `findUnique` rejects the undefined path, the
failure is caught at the document boundary, and no page is upserted at
all, contradicting the claim that the page is upserted with its checksum
set. -/
theorem c10_counterexample :
    (indexFiles cfgFail [d10] st0).db.pages = [] ∧
    (indexFiles cfgFail [d10] st0).trace = [] := by decide

/-- C10 (amended): a document with zero sections that reaches the re-index
path (its checksum differs or a refresh is forced) and whose parent path
is defined is completed successfully: its page is upserted and the
checksum set to the freshly computed value, the page owns zero section
rows, and no provider call and no section insert occur. -/
theorem c10_empty_document (cfg : Config) (st : St) (d : Doc) (pr : ProcessedMdx)
    (hwf : WF st.db) (hload : d.load = .ok pr) (hsec : pr.sections = [])
    (hnoskip : ∀ ep, findPageByPath st.db d.path = some ep →
        cfg.shouldRefresh = true ∨ ep.checksum ≠ some pr.checksum)
    (hpp : ∃ p', d.parentPath = some p') :
    (∃ p ∈ (processDoc cfg st d).db.pages, p.path = d.path ∧
        p.checksum = some pr.checksum ∧
        ∀ s ∈ (processDoc cfg st d).db.sections, s.pageId ≠ p.id) ∧
    (∃ ops, (processDoc cfg st d).trace = st.trace ++ ops ∧
        Op.upsertPage d.path none ∈ ops ∧
        (∀ i, Op.embedCall i ∉ ops) ∧ (∀ a b, Op.createSection a b ∉ ops)) := by
  have hops : processDocOps cfg st.db d
      = reindexBranch cfg st.db d pr (findPageByPath st.db d.path) := by
    cases hfind : findPageByPath st.db d.path with
    | none => rw [processDocOps_eq_none cfg st.db d pr hload hfind]
    | some ep =>
      rw [processDocOps_eq_some cfg st.db d pr ep hload hfind]
      rcases hnoskip ep hfind with hr | hc
      · rw [if_neg (by simp [hr])]
      · rw [if_neg (by simp [hc])]
  obtain ⟨p', hp'⟩ := hpp
  have hnosec := noSectionsOfUpserted st.db d pr.meta
    ((findPageByPath (deleteStep st.db (findPageByPath st.db d.path)).1 p').map Page.id)
    (findPageByPath st.db d.path) hwf rfl
  obtain ⟨hpage, hopseq⟩ := reindexCore_empty_done cfg d pr
    (deleteStep st.db (findPageByPath st.db d.path)).1
    ((findPageByPath (deleteStep st.db (findPageByPath st.db d.path)).1 p').map Page.id)
    hsec hnosec
  have hbr : reindexBranch cfg st.db d pr (findPageByPath st.db d.path)
      = ((reindexCore cfg d pr (deleteStep st.db (findPageByPath st.db d.path)).1
          ((findPageByPath (deleteStep st.db (findPageByPath st.db d.path)).1 p').map Page.id)).1,
         (deleteStep st.db (findPageByPath st.db d.path)).2 ++
          (reindexCore cfg d pr (deleteStep st.db (findPageByPath st.db d.path)).1
          ((findPageByPath (deleteStep st.db (findPageByPath st.db d.path)).1 p').map Page.id)).2) := by
    simp only [reindexBranch]
    rw [hp']
    rfl
  constructor
  · show ∃ p ∈ (processDocOps cfg st.db d).1.pages, _ ∧ _ ∧
      ∀ s ∈ (processDocOps cfg st.db d).1.sections, s.pageId ≠ p.id
    rw [hops, hbr]
    exact hpage
  · refine ⟨(processDocOps cfg st.db d).2, rfl, ?_, ?_, ?_⟩
    · rw [hops, hbr]
      show Op.upsertPage d.path none ∈ _ ++ _
      refine List.mem_append_right _ ?_
      rw [hopseq]
      exact List.mem_cons_self _ _
    · intro i hin
      rw [hops, hbr] at hin
      rcases List.mem_append.mp hin with hin | hin
      · obtain ⟨a, ha⟩ := deleteStep_ops st.db (findPageByPath st.db d.path) _ hin
        cases ha
      · rw [hopseq] at hin
        rcases List.mem_cons.mp hin with h | h
        · cases h
        rcases List.mem_cons.mp h with h | h
        · cases h
        · cases h
    · intro a b hin
      rw [hops, hbr] at hin
      rcases List.mem_append.mp hin with hin | hin
      · obtain ⟨x, hx⟩ := deleteStep_ops st.db (findPageByPath st.db d.path) _ hin
        cases hx
      · rw [hopseq] at hin
        rcases List.mem_cons.mp hin with h | h
        · cases h
        rcases List.mem_cons.mp h with h | h
        · cases h
        · cases h

/-- Witness for C10: a zero-section document with a parent path over the
empty store completes with its checksum set and no sections. -/
theorem c10_witness :
    ∃ p ∈ (processDoc cfgFail st0 d10b).db.pages, p.path = d10b.path ∧
      p.checksum = some "c" ∧
      ∀ s ∈ (processDoc cfgFail st0 d10b).db.sections, s.pageId ≠ p.id := by
  exact (c10_empty_document cfgFail st0 d10b
    { checksum := "c", meta := none, sections := [] }
    (by constructor <;> simp [st0, SecBound])
    rfl rfl
    (by intro ep hep; cases hep)
    ⟨"docs", rfl⟩).1

end Ask
